import Mathlib

/-!
Verification of the inverted-index builders and the boolean/ranked query engine
of the search-engine repository (subProject1.py, subProject2.py).

The Python code is shallowly embedded: dictionaries become association lists
(preserving insertion order), Python `None` becomes `Option.none`, budgets
(`testCount`) become `Option Nat` (`none` models the Python default `None`),
floating-point scores become `ℚ`, and `math.log` is modelled by an abstract
function parameter `mlog : ℚ → ℚ` since only the shape of the arithmetic is at
stake.  Runtime errors (IndexError, ZeroDivisionError) surface as `none` of an
outer `Option` layer.
-/

namespace SearchEngine

/-! ### Generic association-list and dedup helpers -/

/-- Association-list lookup, modelling Python `dict` access (insertion order
is preserved by the lists we build, exactly like a `dict`). -/
def alookup {α β : Type} [DecidableEq α] : List (α × β) → α → Option β
  | [], _ => none
  | (k, v) :: rest, a => if k = a then some v else alookup rest a

/-- Duplicate removal keeping the first occurrence of every element, modelling
Python `list(dict.fromkeys(F))`. -/
def firstDedup {α : Type} [DecidableEq α] : List α → List α
  | [] => []
  | x :: xs => x :: firstDedup (xs.filter (fun y => y ≠ x))
termination_by l => l.length
decreasing_by
  simp only [List.length_cons]
  exact Nat.lt_succ_of_le (List.length_filter_le _ _)

theorem mem_firstDedup {α : Type} [DecidableEq α] (l : List α) (a : α) :
    a ∈ firstDedup l ↔ a ∈ l := by
  induction l using firstDedup.induct with
  | case1 => simp [firstDedup]
  | case2 x xs ih =>
    simp only [firstDedup, List.mem_cons, ih, List.mem_filter, decide_eq_true_eq]
    constructor
    · rintro (rfl | ⟨h, _⟩)
      · exact Or.inl rfl
      · exact Or.inr h
    · rintro (rfl | h)
      · exact Or.inl rfl
      · by_cases hx : a = x
        · exact Or.inl hx
        · exact Or.inr ⟨h, hx⟩

theorem firstDedup_sublist {α : Type} [DecidableEq α] (l : List α) :
    (firstDedup l).Sublist l := by
  induction l using firstDedup.induct with
  | case1 => simp [firstDedup]
  | case2 x xs ih =>
    rw [firstDedup]
    exact (ih.trans (List.filter_sublist xs)).cons₂ x

theorem nodup_firstDedup {α : Type} [DecidableEq α] (l : List α) :
    (firstDedup l).Nodup := by
  induction l using firstDedup.induct with
  | case1 => simp [firstDedup]
  | case2 x xs ih =>
    rw [firstDedup]
    refine List.Nodup.cons ?_ ih
    intro hx
    have := (mem_firstDedup _ _).1 hx
    simp at this

/-- Two strictly increasing lists with the same members are equal. -/
theorem sortedLT_ext : ∀ {l₁ l₂ : List Nat}, l₁.Pairwise (· < ·) →
    l₂.Pairwise (· < ·) → (∀ x, x ∈ l₁ ↔ x ∈ l₂) → l₁ = l₂
  | [], [], _, _, _ => rfl
  | [], b :: l₂, _, _, h => absurd ((h b).2 (List.mem_cons_self b l₂)) (by simp)
  | a :: l₁, [], _, _, h => absurd ((h a).1 (List.mem_cons_self a l₁)) (by simp)
  | a :: l₁, b :: l₂, h₁, h₂, h => by
    have hab : a = b := by
      rcases List.mem_cons.1 ((h a).1 (List.mem_cons_self a l₁)) with heq | ha
      · exact heq
      · rcases List.mem_cons.1 ((h b).2 (List.mem_cons_self b l₂)) with heq | hb
        · exact heq.symm
        · have h1 := (List.pairwise_cons.1 h₁).1 b hb
          have h2 := (List.pairwise_cons.1 h₂).1 a ha
          exact absurd h2 (Nat.lt_asymm h1)
    subst hab
    have htail : ∀ x, x ∈ l₁ ↔ x ∈ l₂ := by
      intro x
      constructor
      · intro hx
        have hax : a < x := (List.pairwise_cons.1 h₁).1 x hx
        rcases List.mem_cons.1 ((h x).1 (List.mem_cons_of_mem a hx)) with heq | hx2
        · rw [heq] at hax
          exact absurd hax (Nat.lt_irrefl a)
        · exact hx2
      · intro hx
        have hax : a < x := (List.pairwise_cons.1 h₂).1 x hx
        rcases List.mem_cons.1 ((h x).2 (List.mem_cons_of_mem a hx)) with heq | hx2
        · rw [heq] at hax
          exact absurd hax (Nat.lt_irrefl a)
        · exact hx2
    rw [sortedLT_ext (List.pairwise_cons.1 h₁).2 (List.pairwise_cons.1 h₂).2 htail]

theorem alookup_eq_none_iff {α β : Type} [DecidableEq α] (l : List (α × β)) (a : α) :
    alookup l a = none ↔ a ∉ l.map Prod.fst := by
  induction l with
  | nil => simp [alookup]
  | cons p rest ih =>
    obtain ⟨k, v⟩ := p
    by_cases hk : k = a
    · subst hk
      simp [alookup]
    · simp [alookup, hk, ih, Ne.symm hk]

theorem alookup_mem {α β : Type} [DecidableEq α] {l : List (α × β)} {a : α} {b : β}
    (h : alookup l a = some b) : (a, b) ∈ l := by
  induction l with
  | nil => simp [alookup] at h
  | cons p rest ih =>
    obtain ⟨k, v⟩ := p
    by_cases hk : k = a
    · subst hk
      simp [alookup] at h
      simp [h]
    · simp [alookup, hk] at h
      exact List.mem_cons_of_mem _ (ih h)

theorem alookup_of_mem {α β : Type} [DecidableEq α] {l : List (α × β)} {a : α} {b : β}
    (hnd : (l.map Prod.fst).Nodup) (h : (a, b) ∈ l) : alookup l a = some b := by
  induction l with
  | nil => simp at h
  | cons p rest ih =>
    obtain ⟨k, v⟩ := p
    simp only [List.map_cons, List.nodup_cons] at hnd
    rcases List.mem_cons.1 h with heq | hmem
    · cases heq
      simp [alookup]
    · have hka : k ≠ a := by
        rintro rfl
        exact hnd.1 (List.mem_map.2 ⟨(k, b), hmem, rfl⟩)
      simp [alookup, hka]
      exact ih hnd.2 hmem

theorem alookup_perm {α β : Type} [DecidableEq α] {l l' : List (α × β)} (hp : l.Perm l')
    (hnd : (l.map Prod.fst).Nodup) (a : α) : alookup l a = alookup l' a := by
  have hnd' : (l'.map Prod.fst).Nodup := ((hp.map Prod.fst).nodup_iff).1 hnd
  cases h : alookup l a with
  | some b =>
    exact (alookup_of_mem hnd' (hp.mem_iff.1 (alookup_mem h))).symm
  | none =>
    cases h' : alookup l' a with
    | none => rfl
    | some b =>
      have : (a, b) ∈ l := hp.mem_iff.2 (alookup_mem h')
      rw [alookup_of_mem hnd this] at h
      cases h

/-! ### subProject1: SPIMI builder (`spimi`) -/

/-- One token arriving for term with postings list `pl` while processing
document `d`: Python
`if postingsList[-1][0] == docID: postingsList[-1] = (docID, f+1) else append (docID, 1)`.
(The `[]` case cannot arise from `spimi`, whose stored postings lists are
always non-empty; Python would raise there.) -/
def postingsAdd : List (Nat × Nat) → Nat → List (Nat × Nat)
  | [], d => [(d, 1)]
  | [(d', f)], d => if d' = d then [(d', f + 1)] else [(d', f), (d, 1)]
  | p :: ps, d => p :: postingsAdd ps d

/-- Processing one token in `spimi`: update the entry of `token` (Python
`index[token]`), or append a fresh entry `token ↦ [(docID, 1)]` as a Python
dict would at the end of its insertion order. -/
def spimiInsert : List (String × List (Nat × Nat)) → String → Nat →
    List (String × List (Nat × Nat))
  | [], token, d => [(token, [(d, 1)])]
  | (t, pl) :: rest, token, d =>
    if t = token then (t, postingsAdd pl d) :: rest
    else (t, pl) :: spimiInsert rest token d

/-- Python truthiness test `if testCount and pairCount >= testCount`. -/
def budgetHit (testCount : Option Nat) (pairCount : Nat) : Bool :=
  match testCount with
  | none => false
  | some t => decide (t ≠ 0) && decide (t ≤ pairCount)

/-- Inner token loop of `spimi` over one document; returns the updated index,
the updated `pairCount` and whether the budget fired (Python `break`). -/
def spimiDocLoop : List String → Nat → Nat → Option Nat →
    List (String × List (Nat × Nat)) → List (String × List (Nat × Nat)) × Nat × Bool
  | [], _, pc, _, index => (index, pc, false)
  | tok :: toks, d, pc, tc, index =>
    let index' := spimiInsert index tok d
    if budgetHit tc (pc + 1) then (index', pc + 1, true)
    else spimiDocLoop toks d (pc + 1) tc index'

/-- Outer document loop of `spimi` (`docID` increments per document; a hit of
the budget breaks out of both loops). -/
def spimiLoop : List (List String) → Nat → Nat → Option Nat →
    List (String × List (Nat × Nat)) → List (String × List (Nat × Nat))
  | [], _, _, _, index => index
  | toks :: rest, d, pc, tc, index =>
    match spimiDocLoop toks d pc tc index with
    | (index', pc', hit) => if hit then index' else spimiLoop rest (d + 1) pc' tc index'

/-- Python `dict(sorted(index.items(), key=lambda item: item[0]))`. -/
def keySortPL (index : List (String × List (Nat × Nat))) :
    List (String × List (Nat × Nat)) :=
  index.mergeSort (fun a b => decide (a.1 ≤ b.1))

/-- `spimi(tokensList, testCount)`: the SPIMI index, keys in sorted order. -/
def spimi (tokensList : List (List String)) (testCount : Option Nat) :
    List (String × List (Nat × Nat)) :=
  keySortPL (spimiLoop tokensList 1 0 testCount [])

/-! ### subProject1: naive builder (`naive`) -/

/-- Python truthiness test `if testCount and len(F) == testCount`. -/
def budgetHitEq (testCount : Option Nat) (n : Nat) : Bool :=
  match testCount with
  | none => false
  | some t => decide (t ≠ 0) && decide (n = t)

/-- Inner token loop of `naive`, appending `(token, docID)` pairs to `F`. -/
def naiveDocLoop : List String → Nat → Option Nat → List (String × Nat) →
    List (String × Nat) × Bool
  | [], _, _, F => (F, false)
  | tok :: toks, d, tc, F =>
    let F' := F ++ [(tok, d)]
    if budgetHitEq tc F'.length then (F', true)
    else naiveDocLoop toks d tc F'

/-- Outer document loop of `naive`. -/
def naiveLoop : List (List String) → Nat → Option Nat → List (String × Nat) →
    List (String × Nat)
  | [], _, _, F => F
  | toks :: rest, d, tc, F =>
    match naiveDocLoop toks d tc F with
    | (F', hit) => if hit then F' else naiveLoop rest (d + 1) tc F'

/-- The pre-dedup pair list `F` accumulated by `naive` (before `F.sort()` and
`list(dict.fromkeys(F))`). -/
def naiveF (tokensList : List (List String)) (tc : Option Nat) : List (String × Nat) :=
  naiveLoop tokensList 1 tc []

/-- Python tuple comparison `(term, docID) <= (term', docID')` used by `F.sort()`. -/
def pairLEb (a b : String × Nat) : Bool :=
  decide (a.1 < b.1) || (decide (a.1 = b.1) && decide (a.2 ≤ b.2))

/-- Python `if index[term][-1] != docID: index[term].append(docID)`.
(The `[]` branch appends; it cannot arise from `naive`, whose stored lists are
always non-empty.) -/
def naiveAppend (l : List Nat) (d : Nat) : List Nat :=
  if l.getLast? = some d then l else l ++ [d]

/-- Grouping one sorted, deduplicated `(term, docID)` pair into the naive index. -/
def naiveInsert : List (String × List Nat) → String × Nat → List (String × List Nat)
  | [], (t, d) => [(t, [d])]
  | (t', pl) :: rest, (t, d) =>
    if t' = t then (t', naiveAppend pl d) :: rest
    else (t', pl) :: naiveInsert rest (t, d)

/-- The grouping loop `for term, docID in F` of `naive`. -/
def naiveIndexOf (F : List (String × Nat)) : List (String × List Nat) :=
  F.foldl naiveInsert []

/-- `naive(tokensList, testCount)`: collect pairs, sort them, drop exact
duplicates (keeping first occurrences, like `dict.fromkeys`), group. -/
def naive (tokensList : List (List String)) (tc : Option Nat) : List (String × List Nat) :=
  naiveIndexOf (firstDedup ((naiveF tokensList tc).mergeSort pairLEb))

/-! ### The token/document pair stream processed by either builder -/

/-- The `(token, docID)` pairs of the corpus in processing order, documents
numbered from `d`. -/
def pairStream : List (List String) → Nat → List (String × Nat)
  | [], _ => []
  | toks :: rest, d => toks.map (fun t => (t, d)) ++ pairStream rest (d + 1)

/-- The portion of a pair stream processed under an occurrence budget: a falsy
budget (`None` or `0`) leaves the stream whole, a positive budget truncates. -/
def truncStream (tc : Option Nat) (S : List (String × Nat)) : List (String × Nat) :=
  match tc with
  | none => S
  | some t => if t = 0 then S else S.take t

/-- The pairs actually processed by a builder run on `tl` with budget `tc`. -/
def procPairs (tl : List (List String)) (tc : Option Nat) : List (String × Nat) :=
  truncStream tc (pairStream tl 1)

/-- One pair step of the SPIMI accumulation. -/
def insStep (idx : List (String × List (Nat × Nat))) (p : String × Nat) :
    List (String × List (Nat × Nat)) :=
  spimiInsert idx p.1 p.2

/-- SPIMI accumulation over a pair stream. -/
def foldIns (idx : List (String × List (Nat × Nat))) (S : List (String × Nat)) :
    List (String × List (Nat × Nat)) :=
  S.foldl insStep idx

/-- Run-length grouping of a document-ID sequence, i.e. what the SPIMI update
computes for a single term. -/
def rle (xs : List Nat) : List (Nat × Nat) := xs.foldl postingsAdd []

/-- The document IDs paired with term `t` in a pair stream, in order. -/
def docsOf (S : List (String × Nat)) (t : String) : List Nat :=
  (S.filter (fun p => decide (p.1 = t))).map Prod.snd

/-- Total term frequency summed over every posting of a SPIMI index. -/
def sumTF (index : List (String × List (Nat × Nat))) : Nat :=
  (index.map (fun e => (e.2.map Prod.snd).sum)).sum

/-- Total number of token occurrences in a corpus. -/
def totalTokens (tl : List (List String)) : Nat := (tl.map List.length).sum

/-- The grouping fold that `naive` applies to one term's docID run. -/
def dlist (ds : List Nat) : List Nat := ds.foldl naiveAppend []

/-- A falsy Python budget: `None` or `0`. -/
def noBudget (tc : Option Nat) : Prop := tc = none ∨ tc = some 0

theorem pairwise_of_forall {α : Type} {R : α → α → Prop} (h : ∀ a b, R a b) :
    ∀ l : List α, l.Pairwise R
  | [] => .nil
  | x :: xs => .cons (fun y _ => h x y) (pairwise_of_forall h xs)

theorem budgetHit_noBudget {tc : Option Nat} (h : noBudget tc) (n : Nat) :
    budgetHit tc n = false := by
  rcases h with rfl | rfl <;> simp [budgetHit]

theorem budgetHitEq_noBudget {tc : Option Nat} (h : noBudget tc) (n : Nat) :
    budgetHitEq tc n = false := by
  rcases h with rfl | rfl <;> simp [budgetHitEq]

/-! ### Both builders process exactly `procPairs` -/

theorem ite_bool_false {α : Type} (a b : α) : (if (false = true) then a else b) = b := by simp

theorem ite_bool_true {α : Type} (a b : α) : (if (true = true) then a else b) = a := by simp

theorem naiveDocLoop_noBudget {tc : Option Nat} (h : noBudget tc) :
    ∀ (toks : List String) (d : Nat) (F : List (String × Nat)),
      naiveDocLoop toks d tc F = (F ++ toks.map (fun tok => (tok, d)), false)
  | [], d, F => by simp [naiveDocLoop]
  | tok :: toks, d, F => by
    simp only [naiveDocLoop, budgetHitEq_noBudget h, ite_bool_false]
    rw [naiveDocLoop_noBudget h toks d (F ++ [(tok, d)])]
    simp

theorem naiveLoop_noBudget {tc : Option Nat} (h : noBudget tc) :
    ∀ (docs : List (List String)) (d : Nat) (F : List (String × Nat)),
      naiveLoop docs d tc F = F ++ pairStream docs d
  | [], d, F => by simp [naiveLoop, pairStream]
  | toks :: rest, d, F => by
    simp only [naiveLoop, naiveDocLoop_noBudget h, ite_bool_false]
    rw [naiveLoop_noBudget h rest (d + 1)]
    simp [pairStream]

theorem naiveDocLoop_budget :
    ∀ (toks : List String) (d : Nat) (F : List (String × Nat)) (r : Nat), 0 < r →
      naiveDocLoop toks d (some (F.length + r)) F =
        if toks.length < r then (F ++ toks.map (fun tok => (tok, d)), false)
        else (F ++ (toks.map (fun tok => (tok, d))).take r, true)
  | [], d, F, r, hr => by
    simp [naiveDocLoop, hr]
  | tok :: toks, d, F, r, hr => by
    have hne : F.length + r ≠ 0 := by omega
    by_cases h1 : r = 1
    · subst h1
      simp [naiveDocLoop, budgetHitEq, hne]
    · obtain ⟨s, rfl⟩ : ∃ s, r = s + 2 := ⟨r - 2, by omega⟩
      have hb : budgetHitEq (some (F.length + (s + 2))) (F ++ [(tok, d)]).length = false := by
        simp [budgetHitEq]
      simp only [naiveDocLoop, hb, ite_bool_false]
      have harith : F.length + (s + 2) = (F ++ [(tok, d)]).length + (s + 1) := by
        simp only [List.length_append, List.length_cons, List.length_nil]
        omega
      rw [harith, naiveDocLoop_budget toks d (F ++ [(tok, d)]) (s + 1) (by omega)]
      by_cases hc : toks.length < s + 1
      · have hcr : (tok :: toks).length < s + 2 := by
          simp only [List.length_cons]
          omega
        rw [if_pos hc, if_pos hcr]
        simp
      · have hcr : ¬((tok :: toks).length < s + 2) := by
          simp only [List.length_cons]
          omega
        rw [if_neg hc, if_neg hcr]
        have htake : List.take (s + 2) ((tok, d) :: toks.map (fun tok => (tok, d)))
            = (tok, d) :: List.take (s + 1) (toks.map (fun tok => (tok, d))) := rfl
        rw [List.map_cons, htake]
        simp

theorem naiveLoop_budget :
    ∀ (docs : List (List String)) (d : Nat) (F : List (String × Nat)) (r : Nat), 0 < r →
      naiveLoop docs d (some (F.length + r)) F = F ++ (pairStream docs d).take r
  | [], d, F, r, hr => by simp [naiveLoop, pairStream]
  | toks :: rest, d, F, r, hr => by
    by_cases hc : toks.length < r
    · obtain ⟨r2, rfl⟩ : ∃ r2, r = toks.length + r2 := ⟨r - toks.length, by omega⟩
      have hr2 : 0 < r2 := by omega
      simp only [naiveLoop, naiveDocLoop_budget toks d F (toks.length + r2) hr, if_pos hc,
        ite_bool_false]
      have harith : F.length + (toks.length + r2)
          = (F ++ toks.map (fun tok => (tok, d))).length + r2 := by
        simp only [List.length_append, List.length_map]
        omega
      rw [harith, naiveLoop_budget rest (d + 1) (F ++ toks.map (fun tok => (tok, d))) r2 hr2]
      have htk : (toks.map (fun tok => (tok, d))).length ≤ toks.length + r2 := by
        simp only [List.length_map]
        omega
      rw [pairStream, List.take_append_eq_append_take, List.take_of_length_le htk]
      have hsub : toks.length + r2 - (toks.map (fun tok => (tok, d))).length = r2 := by
        simp only [List.length_map]
        omega
      rw [hsub, List.append_assoc]
    · simp only [naiveLoop, naiveDocLoop_budget toks d F r hr, if_neg hc, ite_bool_true]
      rw [pairStream, List.take_append_eq_append_take]
      have hsub : r - (toks.map (fun tok => (tok, d))).length = 0 := by
        simp only [List.length_map]
        omega
      rw [hsub]
      simp

theorem naiveF_eq_procPairs (tl : List (List String)) (tc : Option Nat) :
    naiveF tl tc = procPairs tl tc := by
  match tc with
  | none =>
    rw [naiveF, naiveLoop_noBudget (Or.inl rfl)]
    simp [procPairs, truncStream]
  | some 0 =>
    rw [naiveF, naiveLoop_noBudget (Or.inr rfl)]
    simp [procPairs, truncStream]
  | some (t + 1) =>
    have h := naiveLoop_budget tl 1 [] (t + 1) (by omega)
    simp only [List.length_nil, Nat.zero_add, List.nil_append] at h
    rw [naiveF, h]
    simp [procPairs, truncStream]

theorem spimiDocLoop_noBudget {tc : Option Nat} (h : noBudget tc) :
    ∀ (toks : List String) (d : Nat) (pc : Nat) (idx : List (String × List (Nat × Nat))),
      spimiDocLoop toks d pc tc idx =
        (foldIns idx (toks.map (fun tok => (tok, d))), pc + toks.length, false)
  | [], d, pc, idx => by simp [spimiDocLoop, foldIns]
  | tok :: toks, d, pc, idx => by
    simp only [spimiDocLoop, budgetHit_noBudget h, ite_bool_false]
    rw [spimiDocLoop_noBudget h toks d (pc + 1) (spimiInsert idx tok d)]
    have heq : pc + 1 + toks.length = pc + (tok :: toks).length := by
      simp only [List.length_cons]
      omega
    rw [heq]
    rfl

theorem spimiLoop_noBudget {tc : Option Nat} (h : noBudget tc) :
    ∀ (docs : List (List String)) (d : Nat) (pc : Nat) (idx : List (String × List (Nat × Nat))),
      spimiLoop docs d pc tc idx = foldIns idx (pairStream docs d)
  | [], d, pc, idx => by simp [spimiLoop, pairStream, foldIns]
  | toks :: rest, d, pc, idx => by
    simp only [spimiLoop, spimiDocLoop_noBudget h, ite_bool_false]
    rw [spimiLoop_noBudget h rest (d + 1)]
    simp [pairStream, foldIns, List.foldl_append]

theorem spimiDocLoop_budget :
    ∀ (toks : List String) (d : Nat) (pc : Nat) (r : Nat)
      (idx : List (String × List (Nat × Nat))), 0 < r →
      spimiDocLoop toks d pc (some (pc + r)) idx =
        if toks.length < r then
          (foldIns idx (toks.map (fun tok => (tok, d))), pc + toks.length, false)
        else (foldIns idx ((toks.map (fun tok => (tok, d))).take r), pc + r, true)
  | [], d, pc, r, idx, hr => by
    simp [spimiDocLoop, hr, foldIns]
  | tok :: toks, d, pc, r, idx, hr => by
    have hne : pc + r ≠ 0 := by omega
    by_cases h1 : r = 1
    · subst h1
      simp [spimiDocLoop, budgetHit, hne, foldIns, insStep]
    · obtain ⟨s, rfl⟩ : ∃ s, r = s + 2 := ⟨r - 2, by omega⟩
      have hb : budgetHit (some (pc + (s + 2))) (pc + 1) = false := by
        simp [budgetHit]
      simp only [spimiDocLoop, hb, ite_bool_false]
      have harith : pc + (s + 2) = (pc + 1) + (s + 1) := by omega
      rw [harith, spimiDocLoop_budget toks d (pc + 1) (s + 1) (spimiInsert idx tok d) (by omega)]
      by_cases hc : toks.length < s + 1
      · have hcr : (tok :: toks).length < s + 2 := by
          simp only [List.length_cons]
          omega
        rw [if_pos hc, if_pos hcr]
        have heq : pc + 1 + toks.length = pc + (tok :: toks).length := by
          simp only [List.length_cons]
          omega
        rw [heq]
        rfl
      · have hcr : ¬((tok :: toks).length < s + 2) := by
          simp only [List.length_cons]
          omega
        rw [if_neg hc, if_neg hcr]
        have htake : List.take (s + 2) ((tok, d) :: toks.map (fun tok => (tok, d)))
            = (tok, d) :: List.take (s + 1) (toks.map (fun tok => (tok, d))) := rfl
        rw [List.map_cons, htake]
        rfl

theorem spimiLoop_budget :
    ∀ (docs : List (List String)) (d : Nat) (pc : Nat) (r : Nat)
      (idx : List (String × List (Nat × Nat))), 0 < r →
      spimiLoop docs d pc (some (pc + r)) idx = foldIns idx ((pairStream docs d).take r)
  | [], d, pc, r, idx, hr => by simp [spimiLoop, pairStream, foldIns]
  | toks :: rest, d, pc, r, idx, hr => by
    by_cases hc : toks.length < r
    · obtain ⟨r2, rfl⟩ : ∃ r2, r = toks.length + r2 := ⟨r - toks.length, by omega⟩
      have hr2 : 0 < r2 := by omega
      simp only [spimiLoop, spimiDocLoop_budget toks d pc (toks.length + r2) idx hr, if_pos hc,
        ite_bool_false]
      have harith : pc + (toks.length + r2) = (pc + toks.length) + r2 := by omega
      rw [harith,
        spimiLoop_budget rest (d + 1) (pc + toks.length) r2
          (foldIns idx (toks.map (fun tok => (tok, d)))) hr2]
      have htk : (toks.map (fun tok => (tok, d))).length ≤ toks.length + r2 := by
        simp only [List.length_map]
        omega
      rw [pairStream, List.take_append_eq_append_take, List.take_of_length_le htk]
      have hsub : toks.length + r2 - (toks.map (fun tok => (tok, d))).length = r2 := by
        simp only [List.length_map]
        omega
      rw [hsub]
      simp [foldIns, List.foldl_append]
    · simp only [spimiLoop, spimiDocLoop_budget toks d pc r idx hr, if_neg hc, ite_bool_true]
      rw [pairStream, List.take_append_eq_append_take]
      have hsub : r - (toks.map (fun tok => (tok, d))).length = 0 := by
        simp only [List.length_map]
        omega
      rw [hsub]
      simp

theorem spimi_eq_foldIns (tl : List (List String)) (tc : Option Nat) :
    spimi tl tc = keySortPL (foldIns [] (procPairs tl tc)) := by
  match tc with
  | none =>
    rw [spimi, spimiLoop_noBudget (Or.inl rfl)]
    simp [procPairs, truncStream]
  | some 0 =>
    rw [spimi, spimiLoop_noBudget (Or.inr rfl)]
    simp [procPairs, truncStream]
  | some (t + 1) =>
    have h := spimiLoop_budget tl 1 0 (t + 1) [] (by omega)
    simp only [Nat.zero_add] at h
    rw [spimi, h]
    simp [procPairs, truncStream]
/-! ### Structure of the per-term SPIMI accumulation (`postingsAdd` / `rle`) -/

theorem rle_append (xs : List Nat) (d : Nat) : rle (xs ++ [d]) = postingsAdd (rle xs) d := by
  simp [rle, List.foldl_append]

theorem postingsAdd_ne_nil : ∀ (l : List (Nat × Nat)) (d : Nat), postingsAdd l d ≠ []
  | [], d => by simp [postingsAdd]
  | [(d', f)], d => by by_cases h : d' = d <;> simp [postingsAdd, h]
  | p :: q :: rest, d => by simp [postingsAdd]

theorem mem_fst_postingsAdd : ∀ (l : List (Nat × Nat)) (d x : Nat),
    x ∈ (postingsAdd l d).map Prod.fst ↔ x ∈ l.map Prod.fst ∨ x = d
  | [], d, x => by simp [postingsAdd]
  | [(d', f)], d, x => by
    by_cases h : d' = d
    · subst h
      simp [postingsAdd]
    · simp [postingsAdd, h]
  | p :: q :: rest, d, x => by
    simp only [postingsAdd, List.map_cons, List.mem_cons]
    rw [mem_fst_postingsAdd (q :: rest) d x]
    simp only [List.map_cons, List.mem_cons]
    tauto

theorem sum_snd_postingsAdd : ∀ (l : List (Nat × Nat)) (d : Nat),
    ((postingsAdd l d).map Prod.snd).sum = (l.map Prod.snd).sum + 1
  | [], d => by simp [postingsAdd]
  | [(d', f)], d => by by_cases h : d' = d <;> simp [postingsAdd, h]
  | p :: q :: rest, d => by
    simp only [postingsAdd, List.map_cons, List.sum_cons]
    rw [sum_snd_postingsAdd (q :: rest) d]
    simp only [List.map_cons, List.sum_cons]
    omega

theorem getLast?_fst_postingsAdd : ∀ (l : List (Nat × Nat)) (d : Nat),
    (postingsAdd l d).getLast?.map Prod.fst = some d
  | [], d => by simp [postingsAdd]
  | [(d', f)], d => by
    by_cases h : d' = d
    · subst h
      simp [postingsAdd]
    · simp [postingsAdd, h]
  | p :: q :: rest, d => by
    obtain ⟨y, ys, hys⟩ : ∃ y ys, postingsAdd (q :: rest) d = y :: ys := by
      rcases h : postingsAdd (q :: rest) d with _ | ⟨y, ys⟩
      · exact absurd h (postingsAdd_ne_nil (q :: rest) d)
      · exact ⟨y, ys, rfl⟩
    simp only [postingsAdd]
    rw [hys, List.getLast?_cons_cons, ← hys, getLast?_fst_postingsAdd (q :: rest) d]

theorem postingsAdd_eq : ∀ (l : List (Nat × Nat)) (d : Nat),
    postingsAdd l d =
      match l.getLast? with
      | none => [(d, 1)]
      | some (d', f) => if d' = d then l.dropLast ++ [(d', f + 1)] else l ++ [(d, 1)]
  | [], d => by simp [postingsAdd]
  | [(d', f)], d => by
    by_cases h : d' = d
    · subst h
      simp [postingsAdd]
    · simp [postingsAdd, h]
  | p :: q :: rest, d => by
    have hne : (q :: rest : List (Nat × Nat)) ≠ [] := by simp
    simp only [postingsAdd]
    rw [postingsAdd_eq (q :: rest) d]
    rcases heq : (q :: rest).getLast? with _ | ⟨d', f⟩
    · exact absurd (List.getLast?_eq_none_iff.1 heq) hne
    · have hLast : (p :: q :: rest).getLast? = some (d', f) := by
        rw [List.getLast?_cons_cons, heq]
      rw [hLast]
      have hdrop : (p :: q :: rest).dropLast = p :: (q :: rest).dropLast := rfl
      by_cases h : d' = d
      · simp [h, hdrop]
      · simp [h]

theorem rle_eq_nil_iff (xs : List Nat) : rle xs = [] ↔ xs = [] := by
  induction xs using List.reverseRecOn with
  | nil => simp [rle]
  | append_singleton xs d ih =>
    rw [rle_append]
    simp [postingsAdd_ne_nil (rle xs) d]

theorem mem_fst_rle (xs : List Nat) (x : Nat) : x ∈ (rle xs).map Prod.fst ↔ x ∈ xs := by
  induction xs using List.reverseRecOn with
  | nil => simp [rle]
  | append_singleton xs d ih =>
    rw [rle_append, mem_fst_postingsAdd, ih]
    simp

theorem sum_snd_rle (xs : List Nat) : ((rle xs).map Prod.snd).sum = xs.length := by
  induction xs using List.reverseRecOn with
  | nil => simp [rle]
  | append_singleton xs d ih =>
    rw [rle_append, sum_snd_postingsAdd, ih]
    simp

theorem getLast?_fst_rle (xs : List Nat) :
    (rle xs).getLast?.map Prod.fst = xs.getLast? := by
  induction xs using List.reverseRecOn with
  | nil => simp [rle]
  | append_singleton xs d ih =>
    rw [rle_append, getLast?_fst_postingsAdd, List.getLast?_concat]

theorem dropLast_append_of_getLast? {α : Type} {L : List α} :
    ∀ {e : α}, L.getLast? = some e → L.dropLast ++ [e] = L := by
  induction L using List.reverseRecOn with
  | nil => intro e h; simp at h
  | append_singleton L a ih =>
    intro e h
    rw [List.getLast?_concat] at h
    injection h with h
    subst h
    simp [List.dropLast_concat]

theorem getLast?_map' {α β : Type} (f : α → β) (l : List α) :
    (l.map f).getLast? = l.getLast?.map f := by
  induction l using List.reverseRecOn with
  | nil => simp
  | append_singleton l a ih =>
    simp [List.getLast?_concat]

theorem map_dropLast' {α β : Type} (f : α → β) (l : List α) :
    l.dropLast.map f = (l.map f).dropLast := by
  induction l using List.reverseRecOn with
  | nil => simp
  | append_singleton l a ih =>
    simp [List.dropLast_concat]

theorem le_of_mem_getLast? : ∀ (xs : List Nat), xs.Pairwise (· ≤ ·) →
    ∀ y e : Nat, y ∈ xs → xs.getLast? = some e → y ≤ e := by
  intro xs
  induction xs using List.reverseRecOn with
  | nil =>
    intro _ y e hy _
    simp at hy
  | append_singleton xs d ih =>
    intro hp y e hy he
    rw [List.getLast?_concat] at he
    injection he with he
    subst he
    rcases List.mem_append.1 hy with h1 | h2
    · exact (List.pairwise_append.1 hp).2.2 y h1 d (by simp)
    · simp at h2
      subst h2
      exact Nat.le_refl _

theorem rle_fst_pairwise : ∀ (xs : List Nat), xs.Pairwise (· ≤ ·) →
    ((rle xs).map Prod.fst).Pairwise (· < ·) := by
  intro xs
  induction xs using List.reverseRecOn with
  | nil =>
    intro _
    simp [rle]
  | append_singleton xs d ih =>
    intro hp
    have hxs : xs.Pairwise (· ≤ ·) := (List.pairwise_append.1 hp).1
    have hall : ∀ y ∈ xs, y ≤ d := fun y hy => (List.pairwise_append.1 hp).2.2 y hy d (by simp)
    rw [rle_append]
    rcases heq : (rle xs).getLast? with _ | ⟨e, f⟩
    · have hnil : rle xs = [] := List.getLast?_eq_none_iff.1 heq
      rw [hnil]
      simp [postingsAdd]
    · have hlast : xs.getLast? = some e := by
        rw [← getLast?_fst_rle xs, heq]
        rfl
      by_cases hed : e = d
      · have hpa : postingsAdd (rle xs) d = (rle xs).dropLast ++ [(e, f + 1)] := by
          rw [postingsAdd_eq, heq]
          simp [hed]
        have h1 : ((rle xs).dropLast ++ [(e, f + 1)]).map Prod.fst
            = (rle xs).map Prod.fst := by
          rw [List.map_append, map_dropLast' Prod.fst]
          have h2 : ((rle xs).map Prod.fst).getLast? = some e := by
            rw [getLast?_map' Prod.fst, heq]
            rfl
          simpa using dropLast_append_of_getLast? h2
        rw [hpa, h1]
        exact ih hxs
      · have hpa : postingsAdd (rle xs) d = rle xs ++ [(d, 1)] := by
          rw [postingsAdd_eq, heq]
          simp [hed]
        rw [hpa, List.map_append, List.pairwise_append]
        refine ⟨ih hxs, by simp, ?_⟩
        intro y hy b hb
        simp only [List.map_cons, List.map_nil, List.mem_singleton] at hb
        rw [hb]
        have hyx : y ∈ xs := (mem_fst_rle xs y).1 hy
        have hyd : y ≤ d := hall y hyx
        rcases Nat.lt_or_ge y d with hlt | hge
        · exact hlt
        · have hex : e ∈ xs := by
            have h2 := dropLast_append_of_getLast? hlast
            rw [← h2]
            simp
          have h3 : y ≤ e := le_of_mem_getLast? xs hxs y e hyx hlast
          have h4 : e ≤ d := hall e hex
          exact absurd (by omega : e = d) hed

/-! ### Lookup characterization of the SPIMI fold -/

theorem alookup_spimiInsert_same :
    ∀ (idx : List (String × List (Nat × Nat))) (tok : String) (d : Nat),
    alookup (spimiInsert idx tok d) tok =
      some (match alookup idx tok with
            | none => [(d, 1)]
            | some pl => postingsAdd pl d)
  | [], tok, d => by simp [spimiInsert, alookup]
  | (k, pl) :: rest, tok, d => by
    by_cases hk : k = tok
    · subst hk
      simp [spimiInsert, alookup]
    · simp only [spimiInsert, if_neg hk]
      simp only [alookup, if_neg hk]
      exact alookup_spimiInsert_same rest tok d

theorem alookup_spimiInsert_other (idx : List (String × List (Nat × Nat))) (tok : String)
    (d : Nat) (t : String) (h : t ≠ tok) :
    alookup (spimiInsert idx tok d) t = alookup idx t := by
  induction idx with
  | nil => simp [spimiInsert, alookup, Ne.symm h]
  | cons p rest ih =>
    obtain ⟨k, pl⟩ := p
    by_cases hk : k = tok
    · subst hk
      simp [spimiInsert, alookup, Ne.symm h]
    · have hstep : spimiInsert ((k, pl) :: rest) tok d = (k, pl) :: spimiInsert rest tok d := by
        simp [spimiInsert, hk]
      rw [hstep]
      by_cases hkt : k = t
      · simp [alookup, hkt]
      · simp [alookup, hkt, ih]

theorem fst_spimiInsert : ∀ (idx : List (String × List (Nat × Nat))) (tok : String) (d : Nat),
    (spimiInsert idx tok d).map Prod.fst =
      if tok ∈ idx.map Prod.fst then idx.map Prod.fst else idx.map Prod.fst ++ [tok]
  | [], tok, d => by simp [spimiInsert]
  | (k, pl) :: rest, tok, d => by
    by_cases hk : k = tok
    · subst hk
      simp [spimiInsert]
    · simp only [spimiInsert, if_neg hk, List.map_cons]
      rw [fst_spimiInsert rest tok d]
      by_cases hm : tok ∈ rest.map Prod.fst
      · rw [if_pos hm, if_pos (by simp [hm])]
      · rw [if_neg hm, if_neg (by simp [hm, Ne.symm hk])]
        simp

theorem nodup_fst_spimiInsert (idx : List (String × List (Nat × Nat))) (tok : String) (d : Nat)
    (h : (idx.map Prod.fst).Nodup) : ((spimiInsert idx tok d).map Prod.fst).Nodup := by
  rw [fst_spimiInsert]
  by_cases hm : tok ∈ idx.map Prod.fst
  · rw [if_pos hm]
    exact h
  · rw [if_neg hm]
    refine List.Nodup.append h (List.nodup_singleton tok) ?_
    intro x hx hx'
    simp at hx'
    subst hx'
    exact hm hx

theorem nodup_fst_foldIns : ∀ (S : List (String × Nat)) (idx : List (String × List (Nat × Nat))),
    (idx.map Prod.fst).Nodup → ((foldIns idx S).map Prod.fst).Nodup
  | [], _, h => h
  | p :: S, idx, h =>
    nodup_fst_foldIns S (insStep idx p) (nodup_fst_spimiInsert idx p.1 p.2 h)

theorem docsOf_append (S T : List (String × Nat)) (t : String) :
    docsOf (S ++ T) t = docsOf S t ++ docsOf T t := by
  simp [docsOf, List.filter_append]

theorem docsOf_singleton_same (tok : String) (d : Nat) : docsOf [(tok, d)] tok = [d] := by
  simp [docsOf]

theorem docsOf_singleton_other (tok : String) (d : Nat) (t : String) (h : t ≠ tok) :
    docsOf [(tok, d)] t = [] := by
  simp [docsOf, Ne.symm h]

theorem alookup_foldIns_nil : ∀ (S : List (String × Nat)) (t : String),
    alookup (foldIns [] S) t =
      if docsOf S t = [] then none else some (rle (docsOf S t)) := by
  intro S
  induction S using List.reverseRecOn with
  | nil =>
    intro t
    simp [foldIns, alookup, docsOf]
  | append_singleton S p ih =>
    intro t
    obtain ⟨tok, d⟩ := p
    have hstep : foldIns [] (S ++ [(tok, d)]) = spimiInsert (foldIns [] S) tok d := by
      simp [foldIns, List.foldl_append, insStep]
    rw [hstep, docsOf_append]
    by_cases h : t = tok
    · subst h
      rw [alookup_spimiInsert_same, ih t, docsOf_singleton_same]
      by_cases hnil : docsOf S t = []
      · rw [hnil]
        simp [rle, postingsAdd]
      · rw [if_neg hnil, if_neg (by simp : ¬(docsOf S t ++ [d] = [])), rle_append]
    · rw [alookup_spimiInsert_other _ _ _ _ h, ih t, docsOf_singleton_other tok d t h]
      simp

/-! ### Monotonicity of the processed pair stream -/

theorem snd_ge_of_mem_pairStream : ∀ (docs : List (List String)) (d : Nat) (q : String × Nat),
    q ∈ pairStream docs d → d ≤ q.2
  | [], d, q => by simp [pairStream]
  | toks :: rest, d, q => by
    intro hq
    rcases List.mem_append.1 hq with h1 | h2
    · obtain ⟨t, ht, rfl⟩ := List.mem_map.1 h1
      exact Nat.le_refl d
    · exact Nat.le_of_succ_le (snd_ge_of_mem_pairStream rest (d + 1) q h2)

theorem pairwise_snd_pairStream : ∀ (docs : List (List String)) (d : Nat),
    (pairStream docs d).Pairwise (fun p q => p.2 ≤ q.2)
  | [], d => by simp [pairStream]
  | toks :: rest, d => by
    rw [pairStream, List.pairwise_append]
    refine ⟨?_, pairwise_snd_pairStream rest (d + 1), ?_⟩
    · rw [List.pairwise_map]
      exact pairwise_of_forall (fun a b => Nat.le_refl d) toks
    · intro a ha b hb
      obtain ⟨t, ht, rfl⟩ := List.mem_map.1 ha
      exact Nat.le_of_succ_le (snd_ge_of_mem_pairStream rest (d + 1) b hb)

theorem length_pairStream : ∀ (docs : List (List String)) (d : Nat),
    (pairStream docs d).length = totalTokens docs
  | [], d => by simp [pairStream, totalTokens]
  | toks :: rest, d => by
    rw [pairStream]
    simp [totalTokens, length_pairStream rest (d + 1)]

theorem truncStream_sublist (tc : Option Nat) (S : List (String × Nat)) :
    (truncStream tc S).Sublist S := by
  rcases tc with _ | t
  · exact List.Sublist.refl S
  · by_cases h : t = 0
    · rw [show truncStream (some t) S = S from by simp [truncStream, h]]
    · rw [show truncStream (some t) S = S.take t from by simp [truncStream, h]]
      exact List.take_sublist t S

theorem pairwise_snd_procPairs (tl : List (List String)) (tc : Option Nat) :
    (procPairs tl tc).Pairwise (fun p q => p.2 ≤ q.2) :=
  List.Pairwise.sublist (truncStream_sublist tc (pairStream tl 1))
    (pairwise_snd_pairStream tl 1)

theorem docsOf_pairwise_le {S : List (String × Nat)} (h : S.Pairwise (fun p q => p.2 ≤ q.2))
    (t : String) : (docsOf S t).Pairwise (· ≤ ·) :=
  List.pairwise_map.2 (List.Pairwise.sublist (List.filter_sublist S) h)

theorem mem_docsOf (S : List (String × Nat)) (t : String) (x : Nat) :
    x ∈ docsOf S t ↔ (t, x) ∈ S := by
  simp only [docsOf, List.mem_map, List.mem_filter, decide_eq_true_eq]
  constructor
  · rintro ⟨p, ⟨hp, hfst⟩, hsnd⟩
    have hpx : p = (t, x) := Prod.ext hfst hsnd
    rw [← hpx]
    exact hp
  · intro hp
    exact ⟨(t, x), ⟨hp, rfl⟩, rfl⟩

/-! ### Total term frequency -/

theorem sumTF_spimiInsert : ∀ (idx : List (String × List (Nat × Nat))) (tok : String) (d : Nat),
    sumTF (spimiInsert idx tok d) = sumTF idx + 1
  | [], tok, d => by simp [spimiInsert, sumTF, postingsAdd]
  | (k, pl) :: rest, tok, d => by
    by_cases hk : k = tok
    · subst hk
      simp [spimiInsert, sumTF, sum_snd_postingsAdd]
      omega
    · simp only [spimiInsert, if_neg hk]
      simp only [sumTF, List.map_cons, List.sum_cons]
      have ih := sumTF_spimiInsert rest tok d
      simp only [sumTF] at ih
      omega

theorem sumTF_foldIns : ∀ (S : List (String × Nat)) (idx : List (String × List (Nat × Nat))),
    sumTF (foldIns idx S) = sumTF idx + S.length
  | [], idx => by simp [foldIns]
  | p :: S, idx => by
    have h1 := sumTF_foldIns S (insStep idx p)
    have h2 : sumTF (insStep idx p) = sumTF idx + 1 := sumTF_spimiInsert idx p.1 p.2
    calc sumTF (foldIns idx (p :: S)) = sumTF (foldIns (insStep idx p) S) := rfl
    _ = sumTF (insStep idx p) + S.length := h1
    _ = sumTF idx + (p :: S).length := by
        rw [h2, List.length_cons]
        omega

theorem sumTF_perm {A B : List (String × List (Nat × Nat))} (h : A.Perm B) :
    sumTF A = sumTF B := by
  show (A.map (fun e => (e.2.map Prod.snd).sum)).sum
      = (B.map (fun e => (e.2.map Prod.snd).sum)).sum
  exact (h.map (fun e => (e.2.map Prod.snd).sum)).sum_eq

theorem keySortPL_perm (A : List (String × List (Nat × Nat))) : (keySortPL A).Perm A :=
  List.mergeSort_perm A _

theorem alookup_spimi (tl : List (List String)) (tc : Option Nat) (t : String) :
    alookup (spimi tl tc) t =
      if docsOf (procPairs tl tc) t = [] then none
      else some (rle (docsOf (procPairs tl tc) t)) := by
  have hnd : ((foldIns [] (procPairs tl tc)).map Prod.fst).Nodup :=
    nodup_fst_foldIns (procPairs tl tc) [] (by simp)
  have hnd2 : ((keySortPL (foldIns [] (procPairs tl tc))).map Prod.fst).Nodup :=
    (((keySortPL_perm _).map Prod.fst).nodup_iff).2 hnd
  rw [spimi_eq_foldIns, alookup_perm (keySortPL_perm _) hnd2 t, alookup_foldIns_nil]

/-! ### Lookup characterization of the naive grouping fold -/

theorem alookup_naiveInsert_same :
    ∀ (idx : List (String × List Nat)) (tok : String) (d : Nat),
    alookup (naiveInsert idx (tok, d)) tok =
      some (match alookup idx tok with
            | none => [d]
            | some pl => naiveAppend pl d)
  | [], tok, d => by simp [naiveInsert, alookup]
  | (k, pl) :: rest, tok, d => by
    by_cases hk : k = tok
    · subst hk
      simp [naiveInsert, alookup]
    · simp only [naiveInsert, if_neg hk]
      simp only [alookup, if_neg hk]
      exact alookup_naiveInsert_same rest tok d

theorem alookup_naiveInsert_other (idx : List (String × List Nat)) (tok : String)
    (d : Nat) (t : String) (h : t ≠ tok) :
    alookup (naiveInsert idx (tok, d)) t = alookup idx t := by
  induction idx with
  | nil => simp [naiveInsert, alookup, Ne.symm h]
  | cons p rest ih =>
    obtain ⟨k, pl⟩ := p
    by_cases hk : k = tok
    · subst hk
      simp [naiveInsert, alookup, Ne.symm h]
    · have hstep : naiveInsert ((k, pl) :: rest) (tok, d)
          = (k, pl) :: naiveInsert rest (tok, d) := by
        simp [naiveInsert, hk]
      rw [hstep]
      by_cases hkt : k = t
      · simp [alookup, hkt]
      · simp [alookup, hkt, ih]

theorem fst_naiveInsert : ∀ (idx : List (String × List Nat)) (tok : String) (d : Nat),
    (naiveInsert idx (tok, d)).map Prod.fst =
      if tok ∈ idx.map Prod.fst then idx.map Prod.fst else idx.map Prod.fst ++ [tok]
  | [], tok, d => by simp [naiveInsert]
  | (k, pl) :: rest, tok, d => by
    by_cases hk : k = tok
    · subst hk
      simp [naiveInsert]
    · simp only [naiveInsert, if_neg hk, List.map_cons]
      rw [fst_naiveInsert rest tok d]
      by_cases hm : tok ∈ rest.map Prod.fst
      · rw [if_pos hm, if_pos (by simp [hm])]
      · rw [if_neg hm, if_neg (by simp [hm, Ne.symm hk])]
        simp

theorem nodup_fst_naiveInsert (idx : List (String × List Nat)) (tok : String) (d : Nat)
    (h : (idx.map Prod.fst).Nodup) : ((naiveInsert idx (tok, d)).map Prod.fst).Nodup := by
  rw [fst_naiveInsert]
  by_cases hm : tok ∈ idx.map Prod.fst
  · rw [if_pos hm]
    exact h
  · rw [if_neg hm]
    refine List.Nodup.append h (List.nodup_singleton tok) ?_
    intro x hx hx'
    simp at hx'
    subst hx'
    exact hm hx

theorem nodup_fst_naiveFold : ∀ (F : List (String × Nat)) (idx : List (String × List Nat)),
    (idx.map Prod.fst).Nodup → ((F.foldl naiveInsert idx).map Prod.fst).Nodup
  | [], _, h => h
  | p :: F, idx, h => by
    obtain ⟨tok, d⟩ := p
    exact nodup_fst_naiveFold F (naiveInsert idx (tok, d)) (nodup_fst_naiveInsert idx tok d h)

theorem alookup_naiveIndexOf : ∀ (G : List (String × Nat)) (t : String),
    alookup (naiveIndexOf G) t =
      if docsOf G t = [] then none else some (dlist (docsOf G t)) := by
  intro G
  induction G using List.reverseRecOn with
  | nil =>
    intro t
    simp [naiveIndexOf, alookup, docsOf]
  | append_singleton G p ih =>
    intro t
    obtain ⟨tok, d⟩ := p
    have hstep : naiveIndexOf (G ++ [(tok, d)]) = naiveInsert (naiveIndexOf G) (tok, d) := by
      simp [naiveIndexOf, List.foldl_append]
    rw [hstep, docsOf_append]
    by_cases h : t = tok
    · subst h
      rw [alookup_naiveInsert_same, ih t, docsOf_singleton_same]
      by_cases hnil : docsOf G t = []
      · rw [hnil]
        simp [dlist, naiveAppend]
      · rw [if_neg hnil, if_neg (by simp : ¬(docsOf G t ++ [d] = []))]
        have hfold : dlist (docsOf G t ++ [d]) = naiveAppend (dlist (docsOf G t)) d := by
          simp [dlist, List.foldl_append]
        rw [hfold]
    · rw [alookup_naiveInsert_other _ _ _ _ h, ih t, docsOf_singleton_other tok d t h]
      simp

theorem dlist_eq_self {ds : List Nat} (h : ds.Pairwise (· < ·)) : dlist ds = ds := by
  induction ds using List.reverseRecOn with
  | nil => rfl
  | append_singleton ds d ih =>
    have h1 : ds.Pairwise (· < ·) := (List.pairwise_append.1 h).1
    have hstep : dlist (ds ++ [d]) = naiveAppend (dlist ds) d := by
      simp [dlist, List.foldl_append]
    rw [hstep, ih h1, naiveAppend]
    rcases hL : ds.getLast? with _ | e
    · simp [hL]
    · have hmem : e ∈ ds := by
        have h2 := dropLast_append_of_getLast? hL
        rw [← h2]
        simp
      have hlt : e < d := (List.pairwise_append.1 h).2.2 e hmem d (by simp)
      have hne2 : ¬(some e = some d) := by
        simp
        omega
      rw [if_neg hne2]

/-! ### Sortedness of the deduplicated sorted pair list -/

/-- Python tuple order as a relation. -/
def pairLE (a b : String × Nat) : Prop := a.1 < b.1 ∨ (a.1 = b.1 ∧ a.2 ≤ b.2)

theorem pairLEb_iff (a b : String × Nat) : pairLEb a b = true ↔ pairLE a b := by
  simp [pairLEb, pairLE]

theorem pairLEb_trans : ∀ (a b c : String × Nat),
    pairLEb a b = true → pairLEb b c = true → pairLEb a c = true := by
  intro a b c hab hbc
  rw [pairLEb_iff] at hab hbc ⊢
  rcases hab with h1 | ⟨h1, h2⟩
  · rcases hbc with h3 | ⟨h3, h4⟩
    · exact Or.inl (lt_trans h1 h3)
    · exact Or.inl (h3 ▸ h1)
  · rcases hbc with h3 | ⟨h3, h4⟩
    · exact Or.inl (h1 ▸ h3)
    · exact Or.inr ⟨h1.trans h3, le_trans h2 h4⟩

theorem pairLEb_total : ∀ (a b : String × Nat), (pairLEb a b || pairLEb b a) = true := by
  intro a b
  rcases lt_trichotomy a.1 b.1 with h | h | h
  · simp [pairLEb, h]
  · rcases Nat.le_total a.2 b.2 with h2 | h2
    · simp [pairLEb, h, h2]
    · simp [pairLEb, h, h2]
  · simp [pairLEb, h]

theorem sortedF_pairwise (F : List (String × Nat)) :
    (firstDedup (F.mergeSort pairLEb)).Pairwise pairLE := by
  have h1 : (F.mergeSort pairLEb).Pairwise (fun a b => pairLEb a b = true) :=
    List.sorted_mergeSort pairLEb_trans pairLEb_total F
  have h2 : (F.mergeSort pairLEb).Pairwise pairLE :=
    h1.imp (fun hab => (pairLEb_iff _ _).1 hab)
  exact List.Pairwise.sublist (firstDedup_sublist _) h2

theorem docsOf_G_pairwise_lt (F : List (String × Nat)) (t : String) :
    (docsOf (firstDedup (F.mergeSort pairLEb)) t).Pairwise (· < ·) := by
  have hsort : (firstDedup (F.mergeSort pairLEb)).Pairwise pairLE := sortedF_pairwise F
  have hnd : (firstDedup (F.mergeSort pairLEb)).Nodup := nodup_firstDedup _
  have hcomb : (firstDedup (F.mergeSort pairLEb)).Pairwise (fun a b => pairLE a b ∧ a ≠ b) :=
    hsort.and hnd
  have hfil : ((firstDedup (F.mergeSort pairLEb)).filter
      (fun p => decide (p.1 = t))).Pairwise (fun a b => pairLE a b ∧ a ≠ b) :=
    List.Pairwise.sublist (List.filter_sublist _) hcomb
  have hfil2 : ((firstDedup (F.mergeSort pairLEb)).filter
      (fun p => decide (p.1 = t))).Pairwise (fun a b => a.2 < b.2) := by
    refine hfil.imp_of_mem ?_
    intro a b ha hb hab
    have hat : a.1 = t := by simpa using (List.mem_filter.1 ha).2
    have hbt : b.1 = t := by simpa using (List.mem_filter.1 hb).2
    rcases hab.1 with h1 | ⟨h1, h2⟩
    · rw [hat, hbt] at h1
      exact absurd h1 (lt_irrefl _)
    · have hne : a.2 ≠ b.2 := by
        intro hsnd
        exact hab.2 (Prod.ext h1 hsnd)
      omega
  exact List.pairwise_map.2 hfil2

theorem mem_G_iff (F : List (String × Nat)) (p : String × Nat) :
    p ∈ firstDedup (F.mergeSort pairLEb) ↔ p ∈ F := by
  rw [mem_firstDedup]
  exact (List.mergeSort_perm F pairLEb).mem_iff

theorem alookup_naive (tl : List (List String)) (tc : Option Nat) (t : String) :
    alookup (naive tl tc) t =
      if docsOf (firstDedup ((procPairs tl tc).mergeSort pairLEb)) t = [] then none
      else some (docsOf (firstDedup ((procPairs tl tc).mergeSort pairLEb)) t) := by
  rw [naive, naiveF_eq_procPairs, alookup_naiveIndexOf]
  by_cases h : docsOf (firstDedup ((procPairs tl tc).mergeSort pairLEb)) t = []
  · rw [if_pos h, if_pos h]
  · rw [if_neg h, if_neg h, dlist_eq_self (docsOf_G_pairwise_lt _ t)]

theorem naive_docs_eq_rle_fst (tl : List (List String)) (tc : Option Nat) (t : String) :
    docsOf (firstDedup ((procPairs tl tc).mergeSort pairLEb)) t
      = (rle (docsOf (procPairs tl tc) t)).map Prod.fst := by
  apply sortedLT_ext (docsOf_G_pairwise_lt _ t)
    (rle_fst_pairwise _ (docsOf_pairwise_le (pairwise_snd_procPairs tl tc) t))
  intro x
  rw [mem_docsOf, mem_G_iff, mem_fst_rle, mem_docsOf]

theorem nodup_fst_spimi (tl : List (List String)) (tc : Option Nat) :
    ((spimi tl tc).map Prod.fst).Nodup := by
  rw [spimi_eq_foldIns]
  exact (((keySortPL_perm _).map Prod.fst).nodup_iff).2
    (nodup_fst_foldIns (procPairs tl tc) [] (by simp))

theorem nodup_fst_naive (tl : List (List String)) (tc : Option Nat) :
    ((naive tl tc).map Prod.fst).Nodup := by
  rw [naive]
  exact nodup_fst_naiveFold _ [] (by simp)

/-! ### Claim theorems for the index builders -/

/-- C1: for every token corpus and every occurrence budget, the SPIMI index
and the naive index have the same key set, and for every term the naive
index's ascending DocumentID list equals the SPIMI postings list for that
term with term frequencies discarded. -/
theorem spimi_naive_equiv (tl : List (List String)) (tc : Option Nat) :
    (∀ t, t ∈ (spimi tl tc).map Prod.fst ↔ t ∈ (naive tl tc).map Prod.fst) ∧
    (∀ t, alookup (naive tl tc) t
        = (alookup (spimi tl tc) t).map (fun pl => pl.map Prod.fst)) := by
  have hmain : ∀ t, alookup (naive tl tc) t
      = (alookup (spimi tl tc) t).map (fun pl => pl.map Prod.fst) := by
    intro t
    rw [alookup_spimi, alookup_naive, naive_docs_eq_rle_fst]
    by_cases h : docsOf (procPairs tl tc) t = []
    · have h2 : (rle (docsOf (procPairs tl tc) t)).map Prod.fst = [] := by
        rw [h]
        simp [rle]
      rw [if_pos h, if_pos h2]
      rfl
    · have h2 : (rle (docsOf (procPairs tl tc) t)).map Prod.fst ≠ [] := by
        intro h0
        apply h
        rcases hdoc : docsOf (procPairs tl tc) t with _ | ⟨x, xs⟩
        · rfl
        · rw [hdoc] at h0
          have : x ∈ ([] : List Nat) := by
            rw [← h0, mem_fst_rle]
            simp
          simp at this
      rw [if_neg h, if_neg h2]
      rfl
  refine ⟨?_, hmain⟩
  intro t
  have e1 : t ∈ (spimi tl tc).map Prod.fst ↔ ¬(alookup (spimi tl tc) t = none) := by
    rw [alookup_eq_none_iff]
    tauto
  have e2 : t ∈ (naive tl tc).map Prod.fst ↔ ¬(alookup (naive tl tc) t = none) := by
    rw [alookup_eq_none_iff]
    tauto
  rw [e1, e2, hmain t, Option.map_eq_none']

/-- C2: every postings list of either index, for any budget, is strictly
increasing by DocumentID (hence has no duplicate DocumentIDs). -/
theorem postings_strictly_increasing (tl : List (List String)) (tc : Option Nat) :
    (∀ t pl, (t, pl) ∈ spimi tl tc → (pl.map Prod.fst).Pairwise (· < ·)) ∧
    (∀ t pl, (t, pl) ∈ naive tl tc → pl.Pairwise (· < ·)) := by
  constructor
  · intro t pl hmem
    have hlk : alookup (spimi tl tc) t = some pl :=
      alookup_of_mem (nodup_fst_spimi tl tc) hmem
    rw [alookup_spimi] at hlk
    by_cases h : docsOf (procPairs tl tc) t = []
    · rw [if_pos h] at hlk
      cases hlk
    · rw [if_neg h] at hlk
      injection hlk with hlk
      rw [← hlk]
      exact rle_fst_pairwise _ (docsOf_pairwise_le (pairwise_snd_procPairs tl tc) t)
  · intro t pl hmem
    have hlk : alookup (naive tl tc) t = some pl :=
      alookup_of_mem (nodup_fst_naive tl tc) hmem
    rw [alookup_naive] at hlk
    by_cases h : docsOf (firstDedup ((procPairs tl tc).mergeSort pairLEb)) t = []
    · rw [if_pos h] at hlk
      cases hlk
    · rw [if_neg h] at hlk
      injection hlk with hlk
      rw [← hlk]
      exact docsOf_G_pairwise_lt _ t

/-- C6: with a budget of N ≥ 1 and a corpus holding at least N token
occurrences, the SPIMI index's total summed term frequency is exactly N, and
the naive builder accumulates exactly N pre-dedup pairs. -/
theorem budget_exact (tl : List (List String)) (N : Nat) (h1 : 1 ≤ N)
    (h2 : N ≤ totalTokens tl) :
    sumTF (spimi tl (some N)) = N ∧ (naiveF tl (some N)).length = N := by
  have hlen : (procPairs tl (some N)).length = N := by
    rw [procPairs, truncStream]
    rw [if_neg (by omega : ¬(N = 0))]
    rw [List.length_take, length_pairStream]
    exact min_eq_left h2
  constructor
  · calc sumTF (spimi tl (some N)) = sumTF (foldIns [] (procPairs tl (some N))) := by
          rw [spimi_eq_foldIns]
          exact sumTF_perm (keySortPL_perm _)
    _ = sumTF [] + (procPairs tl (some N)).length := sumTF_foldIns _ _
    _ = N := by
          rw [hlen]
          simp [sumTF]
  · rw [naiveF_eq_procPairs]
    exact hlen

/-- C6 witness: a concrete corpus and budget where both counts are exactly 2. -/
theorem budget_exact_witness :
    1 ≤ 2 ∧ 2 ≤ totalTokens [["a", "b"], ["c"]] ∧
      (sumTF (spimi [["a", "b"], ["c"]] (some 2)) = 2 ∧
        (naiveF [["a", "b"], ["c"]] (some 2)).length = 2) :=
  ⟨by decide, by decide, budget_exact [["a", "b"], ["c"]] 2 (by decide) (by decide)⟩

/-- C10: a budget of 0 (or None) disables truncation: both builders process
the whole corpus and return the unbudgeted index, not an empty one. -/
theorem budget_falsy_no_trunc (tl : List (List String)) :
    spimi tl (some 0) = spimi tl none ∧ naive tl (some 0) = naive tl none ∧
    sumTF (spimi tl (some 0)) = totalTokens tl := by
  have hs : procPairs tl (some 0) = procPairs tl none := by
    simp [procPairs, truncStream]
  refine ⟨?_, ?_, ?_⟩
  · rw [spimi_eq_foldIns, spimi_eq_foldIns, hs]
  · rw [naive, naive, naiveF_eq_procPairs, naiveF_eq_procPairs, hs]
  · calc sumTF (spimi tl (some 0)) = sumTF (foldIns [] (procPairs tl (some 0))) := by
          rw [spimi_eq_foldIns]
          exact sumTF_perm (keySortPL_perm _)
    _ = sumTF [] + (procPairs tl (some 0)).length := sumTF_foldIns _ _
    _ = totalTokens tl := by
          simp [sumTF, procPairs, truncStream, length_pairStream]

/-! ### subProject2: boolean query engine -/

/-- Two-pointer merge intersection (`intersect` in subProject2.py). -/
def intersect : List Nat → List Nat → List Nat
  | [], _ => []
  | _ :: _, [] => []
  | a :: as', b :: bs' =>
    if a = b then a :: intersect as' bs'
    else if a < b then intersect as' (b :: bs')
    else intersect (a :: as') bs'
termination_by l1 l2 => l1.length + l2.length
decreasing_by
  all_goals simp only [List.length_cons]
  all_goals omega

/-- The iterative AND fold of `conjunction`, with the early `break` on an
empty intermediate result. -/
def conjFold : List Nat → List (List Nat) → List Nat
  | acc, [] => acc
  | acc, l :: ls =>
    let acc' := intersect acc l
    if acc' = [] then acc' else conjFold acc' ls

/-- `conjunction(postingsLists)`.  `none` models Python `None` (an absent
postings list forces no result).  The empty-input case raises IndexError in
Python (`sortedPostingsLists[0]`) and is modelled as `none`. -/
def conjunction (postingsLists : List (Option (List Nat))) : Option (List Nat) :=
  if none ∈ postingsLists then none
  else
    match (postingsLists.filterMap id).mergeSort
        (fun a b => decide (a.length ≤ b.length)) with
    | [] => none
    | first :: rest => some (conjFold first rest)

theorem intersect_eq_filter : ∀ (l1 l2 : List Nat), l1.Pairwise (· < ·) →
    l2.Pairwise (· < ·) → intersect l1 l2 = l1.filter (fun x => decide (x ∈ l2))
  | [], l2, _, _ => by simp [intersect]
  | a :: as', [], _, _ => by simp [intersect]
  | a :: as', b :: bs', h1, h2 => by
    by_cases hab : a = b
    · subst hab
      rw [show intersect (a :: as') (a :: bs') = a :: intersect as' bs' from by
        simp [intersect]]
      rw [intersect_eq_filter as' bs' (List.pairwise_cons.1 h1).2 (List.pairwise_cons.1 h2).2]
      have hc : decide (a ∈ a :: bs') = true := by simp
      rw [List.filter_cons, if_pos hc]
      congr 1
      apply List.filter_congr
      intro x hx
      have hgt : a < x := (List.pairwise_cons.1 h1).1 x hx
      have hxa : ¬(x = a) := by omega
      simp [List.mem_cons, hxa]
    · by_cases hlt : a < b
      · rw [show intersect (a :: as') (b :: bs') = intersect as' (b :: bs') from by
          simp [intersect, hab, hlt]]
        rw [intersect_eq_filter as' (b :: bs') (List.pairwise_cons.1 h1).2 h2]
        have hnotmem : a ∉ b :: bs' := by
          intro hmem
          rcases List.mem_cons.1 hmem with heq | hmem2
          · omega
          · have := (List.pairwise_cons.1 h2).1 a hmem2
            omega
        have hc : decide (a ∈ b :: bs') = false := by simpa using hnotmem
        have hcond : ¬(decide (a ∈ b :: bs') = true) := by
          rw [hc]
          simp
        rw [List.filter_cons, if_neg hcond]
      · have hgt : b < a := by omega
        rw [show intersect (a :: as') (b :: bs') = intersect (a :: as') bs' from by
          simp [intersect, hab, hlt]]
        rw [intersect_eq_filter (a :: as') bs' h1 (List.pairwise_cons.1 h2).2]
        apply List.filter_congr
        intro x hx
        have hxa : a ≤ x := by
          rcases List.mem_cons.1 hx with heq | hmem2
          · omega
          · have := (List.pairwise_cons.1 h1).1 x hmem2
            omega
        have hxb : ¬(x = b) := by omega
        simp [List.mem_cons, hxb]
termination_by l1 l2 => l1.length + l2.length
decreasing_by
  all_goals simp only [List.length_cons]
  all_goals omega

theorem mem_intersect {l1 l2 : List Nat} (h1 : l1.Pairwise (· < ·))
    (h2 : l2.Pairwise (· < ·)) (x : Nat) :
    x ∈ intersect l1 l2 ↔ x ∈ l1 ∧ x ∈ l2 := by
  rw [intersect_eq_filter l1 l2 h1 h2]
  simp [List.mem_filter]

theorem pairwise_intersect {l1 l2 : List Nat} (h1 : l1.Pairwise (· < ·))
    (h2 : l2.Pairwise (· < ·)) : (intersect l1 l2).Pairwise (· < ·) := by
  rw [intersect_eq_filter l1 l2 h1 h2]
  exact List.Pairwise.sublist (List.filter_sublist _) h1

theorem conjFold_spec : ∀ (ls : List (List Nat)) (acc : List Nat), acc.Pairwise (· < ·) →
    (∀ l ∈ ls, l.Pairwise (· < ·)) →
    ((conjFold acc ls).Pairwise (· < ·) ∧
      ∀ x, x ∈ conjFold acc ls ↔ x ∈ acc ∧ ∀ l ∈ ls, x ∈ l)
  | [], acc, hacc, _ => ⟨hacc, by simp [conjFold]⟩
  | l :: ls, acc, hacc, hls => by
    have hl : l.Pairwise (· < ·) := hls l (List.mem_cons_self l ls)
    have hrest : ∀ l' ∈ ls, l'.Pairwise (· < ·) :=
      fun l' h => hls l' (List.mem_cons_of_mem l h)
    have hint : (intersect acc l).Pairwise (· < ·) := pairwise_intersect hacc hl
    by_cases hnil : intersect acc l = []
    · rw [show conjFold acc (l :: ls) = [] from by simp [conjFold, hnil]]
      refine ⟨List.Pairwise.nil, ?_⟩
      intro x
      constructor
      · intro hx
        exact absurd hx (List.not_mem_nil x)
      · rintro ⟨hxa, hall⟩
        have hxl : x ∈ l := hall l (List.mem_cons_self l ls)
        have hx : x ∈ intersect acc l := (mem_intersect hacc hl x).2 ⟨hxa, hxl⟩
        rw [hnil] at hx
        exact absurd hx (List.not_mem_nil x)
    · rw [show conjFold acc (l :: ls) = conjFold (intersect acc l) ls from by
        simp [conjFold, hnil]]
      obtain ⟨hsorted, hmem⟩ := conjFold_spec ls (intersect acc l) hint hrest
      refine ⟨hsorted, ?_⟩
      intro x
      rw [hmem x, mem_intersect hacc hl x]
      constructor
      · rintro ⟨⟨hxa, hxl⟩, hall⟩
        refine ⟨hxa, ?_⟩
        intro l' hl'
        rcases List.mem_cons.1 hl' with heq | hmem2
        · rw [heq]
          exact hxl
        · exact hall l' hmem2
      · rintro ⟨hxa, hall⟩
        exact ⟨⟨hxa, hall l (List.mem_cons_self l ls)⟩,
          fun l' h => hall l' (List.mem_cons_of_mem l h)⟩

/-- C4: with a non-empty list of postings lists whose present members are
strictly ascending, conjunction yields the empty result (`none`) as soon as
one list is absent, and otherwise exactly the common DocumentIDs in
ascending order. -/
theorem conjunction_spec (pls : List (Option (List Nat))) (hne : pls ≠ [])
    (hs : ∀ l, some l ∈ pls → l.Pairwise (· < ·)) :
    (none ∈ pls → conjunction pls = none) ∧
    (none ∉ pls → ∃ r, conjunction pls = some r ∧ r.Pairwise (· < ·) ∧
      ∀ x, x ∈ r ↔ ∀ l, some l ∈ pls → x ∈ l) := by
  constructor
  · intro h
    simp [conjunction, h]
  · intro h
    rw [conjunction, if_neg h]
    have hmemsort : ∀ l, l ∈ (pls.filterMap id).mergeSort
        (fun a b => decide (a.length ≤ b.length)) ↔ some l ∈ pls := by
      intro l
      rw [(List.mergeSort_perm _ _).mem_iff]
      simp [List.mem_filterMap]
    rcases hsort : (pls.filterMap id).mergeSort (fun a b => decide (a.length ≤ b.length))
      with _ | ⟨first, rest⟩
    · exfalso
      rcases pls with _ | ⟨p, ps⟩
      · exact hne rfl
      · rcases p with _ | l
        · exact h (List.mem_cons_self none ps)
        · have h1 : l ∈ (some l :: ps).filterMap id :=
            List.mem_filterMap.2 ⟨some l, List.mem_cons_self _ _, rfl⟩
          have h2 := (List.mergeSort_perm ((some l :: ps).filterMap id)
            (fun a b => decide (a.length ≤ b.length))).mem_iff.2 h1
          rw [hsort] at h2
          exact absurd h2 (List.not_mem_nil l)
    · have hfirst : first.Pairwise (· < ·) :=
        hs first ((hmemsort first).1 (by rw [hsort]; exact List.mem_cons_self _ _))
      have hrest : ∀ l ∈ rest, l.Pairwise (· < ·) :=
        fun l hl => hs l ((hmemsort l).1 (by rw [hsort]; exact List.mem_cons_of_mem _ hl))
      obtain ⟨hsorted, hmem⟩ := conjFold_spec rest first hfirst hrest
      refine ⟨conjFold first rest, rfl, hsorted, ?_⟩
      intro x
      rw [hmem x]
      constructor
      · rintro ⟨hxf, hall⟩ l hl
        have h3 : l ∈ first :: rest := by
          rw [← hsort]
          exact (hmemsort l).2 hl
        rcases List.mem_cons.1 h3 with heq | h4
        · rw [heq]
          exact hxf
        · exact hall l h4
      · intro hall
        constructor
        · exact hall first ((hmemsort first).1 (by rw [hsort]; exact List.mem_cons_self _ _))
        · intro l hl
          exact hall l ((hmemsort l).1 (by rw [hsort]; exact List.mem_cons_of_mem _ hl))

/-- C4 witness: two present sorted lists; the theorem applies and its
hypotheses hold at this input. -/
theorem conjunction_spec_witness :
    (([some [1, 2], some [2, 3]] : List (Option (List Nat))) ≠ []) ∧
    (∃ r, conjunction [some [1, 2], some [2, 3]] = some r ∧ r.Pairwise (· < ·) ∧
      ∀ x, x ∈ r ↔ ∀ l, some l ∈ ([some [1, 2], some [2, 3]] :
        List (Option (List Nat))) → x ∈ l) :=
  ⟨by decide, (conjunction_spec [some [1, 2], some [2, 3]] (by decide)
    (by
      intro l hl
      simp at hl
      rcases hl with rfl | rfl
      · decide
      · decide)).2 (by decide)⟩

/-- Result of `disjunction`: a bare DocumentID list, or a
(DocumentID, matchCount) ranking when query-term ranking is requested. -/
inductive DisjResult where
  | docs : List Nat → DisjResult
  | ranked : List (Nat × Nat) → DisjResult

/-- One docID arriving in `queryTermRank`'s counting dict:
`docFreq[docID] = docFreq.get(docID, 0) + 1`. -/
def bump : List (Nat × Nat) → Nat → List (Nat × Nat)
  | [], d => [(d, 1)]
  | (k, c) :: rest, d => if k = d then (k, c + 1) :: rest else (k, c) :: bump rest d

/-- The per-docID occurrence counts, in first-encounter order. -/
def docFreq (postingsList : List Nat) : List (Nat × Nat) := postingsList.foldl bump []

/-- `queryTermRank(postingsList)`: count per-docID occurrences, then sort
descending by count (Python `sorted(..., reverse=True)`, a stable sort).
The final Python list comprehension rebuilds the same (docID, score) pairs
and is the identity. -/
def queryTermRank (postingsList : List Nat) : List (Nat × Nat) :=
  (docFreq postingsList).mergeSort (fun a b => decide (b.2 ≤ a.2))

/-- `disjunction(postingsLists, queryTermRanking)`: drop absent lists; if none
remain, no result; otherwise union the lists (Python `chain(*...)`), then
either dedup-and-sort (Python `sorted(set(...))`) or sort and rank. -/
def disjunction (postingsLists : List (Option (List Nat))) (queryTermRanking : Bool) :
    Option DisjResult :=
  let valid := postingsLists.filterMap id
  if valid = [] then none
  else if queryTermRanking then
    some (DisjResult.ranked (queryTermRank (valid.flatten.mergeSort
      (fun a b => decide (a ≤ b)))))
  else
    some (DisjResult.docs ((valid.flatten.dedup).mergeSort (fun a b => decide (a ≤ b))))

/-- C5: with query-term ranking off, disjunction returns the empty result
(`none`) when every list is absent, and otherwise exactly the deduplicated
union of the present lists in ascending DocumentID order. -/
theorem disjunction_spec (pls : List (Option (List Nat))) :
    ((∀ l ∈ pls, l = none) → disjunction pls false = none) ∧
    (∀ L, some L ∈ pls →
      ∃ r, disjunction pls false = some (DisjResult.docs r) ∧ r.Pairwise (· < ·) ∧
        ∀ x, x ∈ r ↔ ∃ l, some l ∈ pls ∧ x ∈ l) := by
  constructor
  · intro h
    have hempty : pls.filterMap id = [] := by
      rw [List.filterMap_eq_nil]
      intro a ha
      rw [h a ha]
      rfl
    simp [disjunction, hempty]
  · intro L hL
    have hvne : pls.filterMap id ≠ [] := by
      intro h0
      have hmem : L ∈ pls.filterMap id := List.mem_filterMap.2 ⟨some L, hL, rfl⟩
      rw [h0] at hmem
      exact absurd hmem (List.not_mem_nil L)
    rw [show disjunction pls false = some (DisjResult.docs
        (((pls.filterMap id).flatten.dedup).mergeSort (fun a b => decide (a ≤ b)))) from by
      simp [disjunction, hvne]]
    refine ⟨_, rfl, ?_, ?_⟩
    · have hnd : ((pls.filterMap id).flatten.dedup).Nodup := List.nodup_dedup _
      have hnd2 : (((pls.filterMap id).flatten.dedup).mergeSort
          (fun a b => decide (a ≤ b))).Nodup := ((List.mergeSort_perm _ _).nodup_iff).2 hnd
      have hsorted := @List.sorted_mergeSort Nat (fun a b => decide (a ≤ b))
        (by intro a b c h1 h2; simp at h1 h2 ⊢; omega)
        (by intro a b; simp; omega)
        ((pls.filterMap id).flatten.dedup)
      have hle : (((pls.filterMap id).flatten.dedup).mergeSort
          (fun a b => decide (a ≤ b))).Pairwise (· ≤ ·) :=
        hsorted.imp (fun hab => by simpa using hab)
      exact (hle.and hnd2).imp (fun hab => lt_of_le_of_ne hab.1 hab.2)
    · intro x
      rw [(List.mergeSort_perm _ _).mem_iff, List.mem_dedup, List.mem_flatten]
      constructor
      · rintro ⟨l, hl, hx⟩
        obtain ⟨o, ho, hid⟩ := List.mem_filterMap.1 hl
        simp only [id] at hid
        rw [hid] at ho
        exact ⟨l, ho, hx⟩
      · rintro ⟨l, hl, hx⟩
        exact ⟨l, List.mem_filterMap.2 ⟨some l, hl, rfl⟩, hx⟩

/-- C5 witness: one absent and one present list; the theorem applies with its
hypothesis discharged at this input. -/
theorem disjunction_spec_witness :
    (some [3, 1] ∈ ([none, some [3, 1]] : List (Option (List Nat)))) ∧
    (∃ r, disjunction [none, some [3, 1]] false = some (DisjResult.docs r) ∧
      r.Pairwise (· < ·) ∧
      ∀ x, x ∈ r ↔ ∃ l, some l ∈ ([none, some [3, 1]] :
        List (Option (List Nat))) ∧ x ∈ l) :=
  ⟨by decide, (disjunction_spec [none, some [3, 1]]).2 [3, 1] (by decide)⟩

theorem sum_snd_bump : ∀ (m : List (Nat × Nat)) (d : Nat),
    ((bump m d).map Prod.snd).sum = (m.map Prod.snd).sum + 1
  | [], d => by simp [bump]
  | (k, c) :: rest, d => by
    by_cases h : k = d
    · simp [bump, h]
      omega
    · simp [bump, h, sum_snd_bump rest d]
      omega

theorem sum_snd_bumpFold : ∀ (l : List Nat) (m : List (Nat × Nat)),
    ((l.foldl bump m).map Prod.snd).sum = (m.map Prod.snd).sum + l.length
  | [], m => by simp
  | x :: l, m => by
    simp only [List.foldl_cons]
    rw [sum_snd_bumpFold l (bump m x), sum_snd_bump]
    simp only [List.length_cons]
    omega

theorem sum_snd_queryTermRank (l : List Nat) :
    ((queryTermRank l).map Prod.snd).sum = l.length := by
  rw [queryTermRank]
  rw [((List.mergeSort_perm (docFreq l) (fun a b => decide (b.2 ≤ a.2))).map
    Prod.snd).sum_eq]
  have h := sum_snd_bumpFold l []
  simpa [docFreq] using h

/-- C8: with query-term ranking requested and at least one present list, the
matchCounts of the ranked disjunction output sum to the total length of the
present input postings lists. -/
theorem disjunction_qtr_sum (pls : List (Option (List Nat))) (L : List Nat)
    (hL : some L ∈ pls) :
    ∃ out, disjunction pls true = some (DisjResult.ranked out) ∧
      (out.map Prod.snd).sum = ((pls.filterMap id).map List.length).sum := by
  have hvne : pls.filterMap id ≠ [] := by
    intro h0
    have hmem : L ∈ pls.filterMap id := List.mem_filterMap.2 ⟨some L, hL, rfl⟩
    rw [h0] at hmem
    exact absurd hmem (List.not_mem_nil L)
  rw [show disjunction pls true = some (DisjResult.ranked (queryTermRank
      ((pls.filterMap id).flatten.mergeSort (fun a b => decide (a ≤ b))))) from by
    simp [disjunction, hvne]]
  refine ⟨_, rfl, ?_⟩
  rw [sum_snd_queryTermRank, (List.mergeSort_perm _ _).length_eq]
  exact List.length_flatten _

/-- C8 witness: two present lists of total length 3 and one absent list. -/
theorem disjunction_qtr_sum_witness :
    (some [1, 2] ∈ ([some [1, 2], none, some [2]] : List (Option (List Nat)))) ∧
    (∃ out, disjunction [some [1, 2], none, some [2]] true
        = some (DisjResult.ranked out) ∧
      (out.map Prod.snd).sum = ((([some [1, 2], none, some [2]] :
        List (Option (List Nat))).filterMap id).map List.length).sum) :=
  ⟨by decide, disjunction_qtr_sum [some [1, 2], none, some [2]] [1, 2] (by decide)⟩

/-- C2 witness: a concrete corpus whose term "a" has the two-document
postings list [(1,1),(2,1)] in the SPIMI index, strictly increasing. -/
theorem postings_strictly_increasing_witness :
    (("a", [(1, 1), (2, 1)]) ∈ spimi [["b", "a", "b"], ["a"]] none) ∧
    (([(1, 1), (2, 1)] : List (Nat × Nat)).map Prod.fst).Pairwise (· < ·) :=
  have hmem : ("a", [(1, 1), (2, 1)]) ∈ spimi [["b", "a", "b"], ["a"]] none :=
    (keySortPL_perm (spimiLoop [["b", "a", "b"], ["a"]] 1 0 none [])).mem_iff.2 (by decide)
  ⟨hmem, (postings_strictly_increasing [["b", "a", "b"], ["a"]] none).1
    "a" [(1, 1), (2, 1)] hmem⟩

/-! ### subProject2: BM25 ranking

Floating-point scores are modelled in `ℚ` and `math.log` as an abstract
function parameter `mlog : ℚ → ℚ`: every claim here concerns the shape of the
accumulation and control flow, not properties of the logarithm. -/

/-- `N = len(collection)` as a rational. -/
def bmN (collection : List (List String)) : ℚ := collection.length

/-- `L_avg = L_total / N` (Python raises ZeroDivisionError on an empty
collection; `bm25` models that before this value is used). -/
def bmLavg (collection : List (List String)) : ℚ :=
  (((collection.map List.length).sum : Nat) : ℚ) / bmN collection

/-- The document-length lookup `len(collection[int(docID)])` inside `bm25`:
the 0-based `collection` indexed directly with the 1-based posting DocumentID.
`none` models the IndexError raised when `docID ≥ len(collection)`. -/
def bm25DocLen (collection : List (List String)) (docID : Nat) : Option Nat :=
  (collection.get? docID).map List.length

/-- The document a 1-based DocumentID denotes: entry `docID - 1` of the
0-based collection. -/
def matchingDoc (collection : List (List String)) (docID : Nat) : Option (List String) :=
  collection.get? (docID - 1)

/-- The BM25 length-normalised term-frequency factor
`(tf*(k1+1)) / (k1*((1-b) + b*(L_d/L_avg)) + tf)`. -/
def bm25Weight (k1 b L_avg : ℚ) (tf Ld : Nat) : ℚ :=
  ((tf : ℚ) * (k1 + 1)) / (k1 * ((1 - b) + b * ((Ld : ℚ) / L_avg)) + (tf : ℚ))

/-- Python `if docID not in rankedResults: rankedResults[docID] = 0.0` then
`rankedResults[docID] += score`, on an insertion-ordered dict. -/
def addScore : List (Nat × ℚ) → Nat → ℚ → List (Nat × ℚ)
  | [], d, s => [(d, 0 + s)]
  | (k, v) :: rest, d, s =>
    if k = d then (k, v + s) :: rest else (k, v) :: addScore rest d s

/-- Inner posting loop of `bm25` for one term of inverse document frequency
`idf`: score every posting whose docID is truthy and in the candidate set;
`none` propagates the IndexError of the document-length lookup. -/
def bm25PostLoop (collection : List (List String)) (res : List Nat)
    (idf k1 b L_avg : ℚ) : List (Nat × Nat) → List (Nat × ℚ) → Option (List (Nat × ℚ))
  | [], acc => some acc
  | (docID, tf) :: rest, acc =>
    if docID ≠ 0 ∧ docID ∈ res then
      match bm25DocLen collection docID with
      | none => none
      | some Ld =>
        bm25PostLoop collection res idf k1 b L_avg rest
          (addScore acc docID (idf * bm25Weight k1 b L_avg tf Ld))
    else bm25PostLoop collection res idf k1 b L_avg rest acc

/-- `idf = math.log(N / df) if df != 0 else 0`, with `df` the length of the
term's postings list (`index.get(term, [])`). -/
def idfOf (mlog : ℚ → ℚ) (Nq : ℚ) (index : List (String × List (Nat × Nat)))
    (t : String) : ℚ :=
  if ((alookup index t).getD []).length ≠ 0 then
    mlog (Nq / ((((alookup index t).getD []).length : Nat) : ℚ))
  else 0

/-- Outer term loop of `bm25`. -/
def bm25TermLoop (mlog : ℚ → ℚ) (index : List (String × List (Nat × Nat)))
    (collection : List (List String)) (res : List Nat) (k1 b : ℚ) :
    List String → List (Nat × ℚ) → Option (List (Nat × ℚ))
  | [], acc => some acc
  | t :: ts, acc =>
    match bm25PostLoop collection res (idfOf mlog (bmN collection) index t) k1 b
        (bmLavg collection) ((alookup index t).getD []) acc with
    | none => none
    | some acc' => bm25TermLoop mlog index collection res k1 b ts acc'

/-- `bm25(queryTerms, result, index, collection, k1, b)`.  The outer `Option`
is `none` exactly when Python raises (ZeroDivisionError on an empty
collection, IndexError in the length lookup); `some none` is Python's `None`
return (absent result, or every accumulated score equal to 0.0); and
`some (some out)` is the ranking sorted descending by score (Python
`sorted(..., reverse=True)`, a stable sort). -/
def bm25 (mlog : ℚ → ℚ) (queryTerms : List String) (result : Option (List Nat))
    (index : List (String × List (Nat × Nat))) (collection : List (List String))
    (k1 b : ℚ) : Option (Option (List (Nat × ℚ))) :=
  if collection.length = 0 then none
  else
    match result with
    | none => some none
    | some res =>
      match bm25TermLoop mlog index collection res k1 b queryTerms [] with
      | none => none
      | some ranked =>
        if ranked.all (fun p => decide (p.2 = 0)) then some none
        else some (some (ranked.mergeSort (fun p q => decide (q.2 ≤ p.2))))

/-- The BM25 contribution of one posting `p` of a term with inverse document
frequency `idf` to candidate `d` (0 unless the posting is `d`'s, `d` is
truthy and `d` is in the result set).  The length factor reads
`bm25DocLen collection d`, i.e. the code's off-by-one lookup. -/
def contribVal (collection : List (List String)) (res : List Nat)
    (idf k1 b L_avg : ℚ) (d : Nat) (p : Nat × Nat) : ℚ :=
  if p.1 = d ∧ d ≠ 0 ∧ d ∈ res then
    idf * bm25Weight k1 b L_avg p.2 ((bm25DocLen collection d).getD 0)
  else 0

/-- The score `bm25` accumulates for document `d`: the sum, over query terms,
of the contributions of that term's postings. -/
def accumScore (mlog : ℚ → ℚ) (index : List (String × List (Nat × Nat)))
    (collection : List (List String)) (res : List Nat) (k1 b : ℚ)
    (qts : List String) (d : Nat) : ℚ :=
  (qts.map (fun t => (((alookup index t).getD []).map
    (contribVal collection res (idfOf mlog (bmN collection) index t) k1 b
      (bmLavg collection) d)).sum)).sum

/-- Document `d` receives an entry in `bm25`'s score dict for one term's
postings list `pl` exactly when this holds. -/
def qualP (res : List Nat) (pl : List (Nat × Nat)) (x : Nat) : Prop :=
  x ≠ 0 ∧ x ∈ res ∧ ∃ p ∈ pl, p.1 = x

/-- Document `d` receives an entry in `bm25`'s score dict at all. -/
def isCandidate (index : List (String × List (Nat × Nat))) (res : List Nat)
    (qts : List String) (d : Nat) : Prop :=
  d ≠ 0 ∧ d ∈ res ∧ ∃ t ∈ qts, ∃ p ∈ (alookup index t).getD [], p.1 = d

theorem alookup_addScore_same : ∀ (acc : List (Nat × ℚ)) (d : Nat) (s : ℚ),
    alookup (addScore acc d s) d = some ((alookup acc d).getD 0 + s)
  | [], d, s => by simp [addScore, alookup]
  | (k, v) :: rest, d, s => by
    by_cases hk : k = d
    · subst hk
      simp [addScore, alookup]
    · simp [addScore, alookup, hk, alookup_addScore_same rest d s]

theorem alookup_addScore_other (acc : List (Nat × ℚ)) (d : Nat) (s : ℚ) (x : Nat)
    (h : x ≠ d) : alookup (addScore acc d s) x = alookup acc x := by
  induction acc with
  | nil => simp [addScore, alookup, Ne.symm h]
  | cons p rest ih =>
    obtain ⟨k, v⟩ := p
    by_cases hk : k = d
    · subst hk
      simp [addScore, alookup, Ne.symm h]
    · have hstep : addScore ((k, v) :: rest) d s = (k, v) :: addScore rest d s := by
        simp [addScore, hk]
      rw [hstep]
      by_cases hkx : k = x
      · simp [alookup, hkx]
      · simp [alookup, hkx, ih]

theorem fst_addScore : ∀ (acc : List (Nat × ℚ)) (d : Nat) (s : ℚ),
    (addScore acc d s).map Prod.fst =
      if d ∈ acc.map Prod.fst then acc.map Prod.fst else acc.map Prod.fst ++ [d]
  | [], d, s => by simp [addScore]
  | (k, v) :: rest, d, s => by
    by_cases hk : k = d
    · subst hk
      simp [addScore]
    · simp only [addScore, if_neg hk, List.map_cons]
      rw [fst_addScore rest d s]
      by_cases hm : d ∈ rest.map Prod.fst
      · rw [if_pos hm, if_pos (by simp [hm])]
      · rw [if_neg hm, if_neg (by simp [hm, Ne.symm hk])]
        simp

theorem nodup_fst_addScore (acc : List (Nat × ℚ)) (d : Nat) (s : ℚ)
    (h : (acc.map Prod.fst).Nodup) : ((addScore acc d s).map Prod.fst).Nodup := by
  rw [fst_addScore]
  by_cases hm : d ∈ acc.map Prod.fst
  · rw [if_pos hm]
    exact h
  · rw [if_neg hm]
    refine List.Nodup.append h (List.nodup_singleton d) ?_
    intro x hx hx'
    simp at hx'
    subst hx'
    exact hm hx

theorem contrib_eq_zero_of_ne {collection : List (List String)} {res : List Nat}
    {idf k1 b L_avg : ℚ} {x : Nat} (p : Nat × Nat)
    (h : ¬(p.1 = x ∧ x ≠ 0 ∧ x ∈ res)) :
    contribVal collection res idf k1 b L_avg x p = 0 := by
  rw [contribVal, if_neg h]

theorem contrib_sum_zero {collection : List (List String)} {res : List Nat}
    {idf k1 b L_avg : ℚ} {x : Nat} {pl : List (Nat × Nat)}
    (h : ¬qualP res pl x) :
    (pl.map (contribVal collection res idf k1 b L_avg x)).sum = 0 := by
  induction pl with
  | nil => simp
  | cons p rest ih =>
    have hrest : ¬qualP res rest x := by
      rintro ⟨h1, h2, p', hp', hfst⟩
      exact h ⟨h1, h2, p', List.mem_cons_of_mem _ hp', hfst⟩
    have hz : contribVal collection res idf k1 b L_avg x p = 0 := by
      apply contrib_eq_zero_of_ne
      rintro ⟨hfst, h1, h2⟩
      exact h ⟨h1, h2, p, List.mem_cons_self _ _, hfst⟩
    simp [hz, ih hrest]

theorem bm25PostLoop_spec (collection : List (List String)) (res : List Nat)
    (idf k1 b L_avg : ℚ) :
    ∀ (pl : List (Nat × Nat)) (acc : List (Nat × ℚ)),
    (∀ p ∈ pl, p.1 ≠ 0 → p.1 ∈ res → p.1 < collection.length) →
    ∃ acc', bm25PostLoop collection res idf k1 b L_avg pl acc = some acc' ∧
      (∀ x, alookup acc x = none → ¬qualP res pl x → alookup acc' x = none) ∧
      (∀ x v, alookup acc x = some v → ∃ w, alookup acc' x = some w ∧
        w = v + (pl.map (contribVal collection res idf k1 b L_avg x)).sum) ∧
      (∀ x, alookup acc x = none → qualP res pl x → ∃ w, alookup acc' x = some w ∧
        w = (pl.map (contribVal collection res idf k1 b L_avg x)).sum) ∧
      ((acc.map Prod.fst).Nodup → (acc'.map Prod.fst).Nodup)
  | [], acc, _ => by
    refine ⟨acc, by simp [bm25PostLoop], ?_, ?_, ?_, fun h => h⟩
    · intro x hx _
      exact hx
    · intro x v hv
      exact ⟨v, hv, by simp⟩
    · intro x hx hq
      rcases hq with ⟨_, _, p, hp, _⟩
      exact absurd hp (List.not_mem_nil p)
  | (docID, tf) :: rest, acc, hbound => by
    have hbrest : ∀ p ∈ rest, p.1 ≠ 0 → p.1 ∈ res → p.1 < collection.length :=
      fun p hp => hbound p (List.mem_cons_of_mem _ hp)
    by_cases hq : docID ≠ 0 ∧ docID ∈ res
    · have hlt : docID < collection.length :=
        hbound (docID, tf) (List.mem_cons_self _ _) hq.1 hq.2
      obtain ⟨Ld, hLd⟩ : ∃ Ld, bm25DocLen collection docID = some Ld := by
        rcases hg : collection.get? docID with _ | doc
        · rw [List.get?_eq_none] at hg
          omega
        · refine ⟨doc.length, ?_⟩
          rw [bm25DocLen, hg]
          rfl
      have hstep : bm25PostLoop collection res idf k1 b L_avg ((docID, tf) :: rest) acc
          = bm25PostLoop collection res idf k1 b L_avg rest
              (addScore acc docID (idf * bm25Weight k1 b L_avg tf Ld)) := by
        simp [bm25PostLoop, hq, hLd]
      have hcontrib_self :
          contribVal collection res idf k1 b L_avg docID (docID, tf)
            = idf * bm25Weight k1 b L_avg tf Ld := by
        rw [contribVal, if_pos ⟨rfl, hq⟩]
        simp [hLd]
      have hcontrib_other : ∀ x, x ≠ docID →
          contribVal collection res idf k1 b L_avg x (docID, tf) = 0 := by
        intro x hx
        apply contrib_eq_zero_of_ne
        rintro ⟨hfst, _, _⟩
        exact hx hfst.symm
      obtain ⟨acc', heq, hA, hB, hC, hnd⟩ :=
        bm25PostLoop_spec collection res idf k1 b L_avg rest
          (addScore acc docID (idf * bm25Weight k1 b L_avg tf Ld)) hbrest
      refine ⟨acc', by rw [hstep]; exact heq, ?_, ?_, ?_, ?_⟩
      · intro x hx hnq
        have hxd : x ≠ docID := by
          rintro rfl
          exact hnq ⟨hq.1, hq.2, (x, tf), List.mem_cons_self _ _, rfl⟩
        have hx2 : alookup (addScore acc docID (idf * bm25Weight k1 b L_avg tf Ld)) x
            = none := by
          rw [alookup_addScore_other acc docID _ x hxd]
          exact hx
        apply hA x hx2
        rintro ⟨h1, h2, p, hp, hfst⟩
        exact hnq ⟨h1, h2, p, List.mem_cons_of_mem _ hp, hfst⟩
      · intro x v hv
        by_cases hxd : x = docID
        · subst hxd
          have hv2 : alookup (addScore acc x (idf * bm25Weight k1 b L_avg tf Ld)) x
              = some (v + idf * bm25Weight k1 b L_avg tf Ld) := by
            rw [alookup_addScore_same, hv]
            rfl
          obtain ⟨w, hw, hwe⟩ := hB x _ hv2
          refine ⟨w, hw, ?_⟩
          rw [hwe, List.map_cons, List.sum_cons, hcontrib_self]
          ring
        · have hv2 : alookup (addScore acc docID (idf * bm25Weight k1 b L_avg tf Ld)) x
              = some v := by
            rw [alookup_addScore_other acc docID _ x hxd]
            exact hv
          obtain ⟨w, hw, hwe⟩ := hB x v hv2
          refine ⟨w, hw, ?_⟩
          rw [hwe, List.map_cons, List.sum_cons, hcontrib_other x hxd]
          ring
      · intro x hx hqc
        by_cases hxd : x = docID
        · subst hxd
          have hv2 : alookup (addScore acc x (idf * bm25Weight k1 b L_avg tf Ld)) x
              = some (0 + idf * bm25Weight k1 b L_avg tf Ld) := by
            rw [alookup_addScore_same, hx]
            rfl
          obtain ⟨w, hw, hwe⟩ := hB x _ hv2
          refine ⟨w, hw, ?_⟩
          rw [hwe, List.map_cons, List.sum_cons, hcontrib_self]
          ring
        · have hx2 : alookup (addScore acc docID (idf * bm25Weight k1 b L_avg tf Ld)) x
              = none := by
            rw [alookup_addScore_other acc docID _ x hxd]
            exact hx
          have hqrest : qualP res rest x := by
            rcases hqc with ⟨h1, h2, p, hp, hfst⟩
            rcases List.mem_cons.1 hp with heq | hmem
            · exfalso
              apply hxd
              rw [← hfst, heq]
            · exact ⟨h1, h2, p, hmem, hfst⟩
          obtain ⟨w, hw, hwe⟩ := hC x hx2 hqrest
          refine ⟨w, hw, ?_⟩
          rw [hwe, List.map_cons, List.sum_cons, hcontrib_other x hxd]
          ring
      · intro h
        exact hnd (nodup_fst_addScore acc docID _ h)
    · have hstep : bm25PostLoop collection res idf k1 b L_avg ((docID, tf) :: rest) acc
          = bm25PostLoop collection res idf k1 b L_avg rest acc := by
        simp [bm25PostLoop, hq]
      have hzero : ∀ x, contribVal collection res idf k1 b L_avg x (docID, tf) = 0 := by
        intro x
        apply contrib_eq_zero_of_ne
        rintro ⟨hfst, h1, h2⟩
        apply hq
        have hxd : docID = x := hfst
        exact ⟨by rw [hxd]; exact h1, by rw [hxd]; exact h2⟩
      obtain ⟨acc', heq, hA, hB, hC, hnd⟩ :=
        bm25PostLoop_spec collection res idf k1 b L_avg rest acc hbrest
      refine ⟨acc', by rw [hstep]; exact heq, ?_, ?_, ?_, hnd⟩
      · intro x hx hnq
        apply hA x hx
        rintro ⟨h1, h2, p, hp, hfst⟩
        exact hnq ⟨h1, h2, p, List.mem_cons_of_mem _ hp, hfst⟩
      · intro x v hv
        obtain ⟨w, hw, hwe⟩ := hB x v hv
        refine ⟨w, hw, ?_⟩
        rw [hwe, List.map_cons, List.sum_cons, hzero x]
        ring
      · intro x hx hqc
        have hqrest : qualP res rest x := by
          rcases hqc with ⟨h1, h2, p, hp, hfst⟩
          rcases List.mem_cons.1 hp with heq | hmem
          · exfalso
            apply hq
            rw [heq] at hfst
            have hxd : docID = x := hfst
            exact ⟨by rw [hxd]; exact h1, by rw [hxd]; exact h2⟩
          · exact ⟨h1, h2, p, hmem, hfst⟩
        obtain ⟨w, hw, hwe⟩ := hC x hx hqrest
        refine ⟨w, hw, ?_⟩
        rw [hwe, List.map_cons, List.sum_cons, hzero x]
        ring

theorem accumScore_nil (mlog : ℚ → ℚ) (index : List (String × List (Nat × Nat)))
    (collection : List (List String)) (res : List Nat) (k1 b : ℚ) (d : Nat) :
    accumScore mlog index collection res k1 b [] d = 0 := by
  simp [accumScore]

theorem accumScore_cons (mlog : ℚ → ℚ) (index : List (String × List (Nat × Nat)))
    (collection : List (List String)) (res : List Nat) (k1 b : ℚ) (t : String)
    (ts : List String) (d : Nat) :
    accumScore mlog index collection res k1 b (t :: ts) d =
      (((alookup index t).getD []).map
        (contribVal collection res (idfOf mlog (bmN collection) index t) k1 b
          (bmLavg collection) d)).sum
      + accumScore mlog index collection res k1 b ts d := by
  simp [accumScore]

theorem accumScore_eq_zero_of_not_candidate (mlog : ℚ → ℚ)
    (index : List (String × List (Nat × Nat))) (collection : List (List String))
    (res : List Nat) (k1 b : ℚ) (qts : List String) (d : Nat)
    (h : ¬isCandidate index res qts d) :
    accumScore mlog index collection res k1 b qts d = 0 := by
  rw [accumScore]
  apply List.sum_eq_zero
  intro s hs
  obtain ⟨t, ht, rfl⟩ := List.mem_map.1 hs
  apply contrib_sum_zero
  rintro ⟨h1, h2, p, hp, hf⟩
  exact h ⟨h1, h2, t, ht, p, hp, hf⟩

theorem bm25TermLoop_spec (mlog : ℚ → ℚ) (index : List (String × List (Nat × Nat)))
    (collection : List (List String)) (res : List Nat) (k1 b : ℚ) :
    ∀ (qts : List String) (acc : List (Nat × ℚ)),
    (∀ t ∈ qts, ∀ p ∈ (alookup index t).getD [], p.1 ≠ 0 → p.1 ∈ res →
      p.1 < collection.length) →
    ∃ ranked, bm25TermLoop mlog index collection res k1 b qts acc = some ranked ∧
      (∀ x, alookup acc x = none → ¬isCandidate index res qts x →
        alookup ranked x = none) ∧
      (∀ x v, alookup acc x = some v → ∃ w, alookup ranked x = some w ∧
        w = v + accumScore mlog index collection res k1 b qts x) ∧
      (∀ x, alookup acc x = none → isCandidate index res qts x →
        ∃ w, alookup ranked x = some w ∧
          w = accumScore mlog index collection res k1 b qts x) ∧
      ((acc.map Prod.fst).Nodup → (ranked.map Prod.fst).Nodup)
  | [], acc, _ => by
    refine ⟨acc, by simp [bm25TermLoop], ?_, ?_, ?_, fun h => h⟩
    · intro x hx _
      exact hx
    · intro x v hv
      exact ⟨v, hv, by simp [accumScore]⟩
    · intro x hx hc
      rcases hc with ⟨_, _, t, ht, _⟩
      exact absurd ht (List.not_mem_nil t)
  | t :: ts, acc, hbound => by
    have hbt : ∀ p ∈ (alookup index t).getD [], p.1 ≠ 0 → p.1 ∈ res →
        p.1 < collection.length := hbound t (List.mem_cons_self _ _)
    have hbts : ∀ t' ∈ ts, ∀ p ∈ (alookup index t').getD [], p.1 ≠ 0 → p.1 ∈ res →
        p.1 < collection.length := fun t' ht' => hbound t' (List.mem_cons_of_mem _ ht')
    obtain ⟨acc₂, heq₂, hA₂, hB₂, hC₂, hnd₂⟩ :=
      bm25PostLoop_spec collection res (idfOf mlog (bmN collection) index t) k1 b
        (bmLavg collection) ((alookup index t).getD []) acc hbt
    obtain ⟨ranked, heqr, hAr, hBr, hCr, hndr⟩ :=
      bm25TermLoop_spec mlog index collection res k1 b ts acc₂ hbts
    have hstep : bm25TermLoop mlog index collection res k1 b (t :: ts) acc
        = bm25TermLoop mlog index collection res k1 b ts acc₂ := by
      simp [bm25TermLoop, heq₂]
    refine ⟨ranked, by rw [hstep]; exact heqr, ?_, ?_, ?_, fun h => hndr (hnd₂ h)⟩
    · intro x hx hnc
      have hnq : ¬qualP res ((alookup index t).getD []) x := by
        rintro ⟨h1, h2, p, hp, hf⟩
        exact hnc ⟨h1, h2, t, List.mem_cons_self _ _, p, hp, hf⟩
      have hx₂ := hA₂ x hx hnq
      apply hAr x hx₂
      rintro ⟨h1, h2, t', ht', p, hp, hf⟩
      exact hnc ⟨h1, h2, t', List.mem_cons_of_mem _ ht', p, hp, hf⟩
    · intro x v hv
      obtain ⟨w₂, hw₂, he₂⟩ := hB₂ x v hv
      obtain ⟨w, hw, hwe⟩ := hBr x w₂ hw₂
      refine ⟨w, hw, ?_⟩
      rw [hwe, he₂, accumScore_cons]
      ring
    · intro x hx hc
      by_cases hq1 : qualP res ((alookup index t).getD []) x
      · obtain ⟨w₂, hw₂, he₂⟩ := hC₂ x hx hq1
        obtain ⟨w, hw, hwe⟩ := hBr x w₂ hw₂
        refine ⟨w, hw, ?_⟩
        rw [hwe, he₂, accumScore_cons]
      · have hx₂ := hA₂ x hx hq1
        have hcts : isCandidate index res ts x := by
          rcases hc with ⟨h1, h2, t', ht', p, hp, hf⟩
          rcases List.mem_cons.1 ht' with heq | hmem
          · exfalso
            apply hq1
            rw [heq] at hp
            exact ⟨h1, h2, p, hp, hf⟩
          · exact ⟨h1, h2, t', hmem, p, hp, hf⟩
        obtain ⟨w, hw, hwe⟩ := hCr x hx₂ hcts
        refine ⟨w, hw, ?_⟩
        rw [hwe, accumScore_cons, contrib_sum_zero hq1]
        ring

/-! ### Claim theorems for BM25 -/

/-- C9: when every document's accumulated BM25 score is exactly 0 (including
when there is no scored candidate at all), `bm25` returns the no-result
indicator (Python `None`) instead of an all-zero ranking; otherwise it
returns exactly the scored candidates, sorted descending by accumulated
score. -/
theorem bm25_zero_guard (mlog : ℚ → ℚ) (qts : List String) (res : List Nat)
    (index : List (String × List (Nat × Nat))) (collection : List (List String))
    (k1 b : ℚ) (hcoll : collection ≠ [])
    (hbound : ∀ t ∈ qts, ∀ p ∈ (alookup index t).getD [], p.1 ≠ 0 → p.1 ∈ res →
      p.1 < collection.length) :
    ((∀ d, accumScore mlog index collection res k1 b qts d = 0) →
      bm25 mlog qts (some res) index collection k1 b = some none) ∧
    ((∃ d, accumScore mlog index collection res k1 b qts d ≠ 0) →
      ∃ out, bm25 mlog qts (some res) index collection k1 b = some (some out) ∧
        (out.map Prod.snd).Pairwise (fun a c => c ≤ a) ∧
        (∀ p ∈ out, p.2 = accumScore mlog index collection res k1 b qts p.1) ∧
        (∀ d, d ∈ out.map Prod.fst ↔ isCandidate index res qts d)) := by
  have hlen0 : ¬(collection.length = 0) := by
    simpa using hcoll
  obtain ⟨ranked, hloop, hA, hB, hC, hnd⟩ :=
    bm25TermLoop_spec mlog index collection res k1 b qts [] hbound
  have hndr : (ranked.map Prod.fst).Nodup := hnd (by simp)
  have hvals : ∀ p ∈ ranked, p.2 = accumScore mlog index collection res k1 b qts p.1 := by
    intro p hp
    have hlk : alookup ranked p.1 = some p.2 := alookup_of_mem hndr hp
    by_cases hc : isCandidate index res qts p.1
    · obtain ⟨w, hw, hwe⟩ := hC p.1 (by simp [alookup]) hc
      rw [hlk] at hw
      injection hw with hw
      rw [hw]
      exact hwe
    · have h0 := hA p.1 (by simp [alookup]) hc
      rw [hlk] at h0
      cases h0
  have hkey : ∀ d, d ∈ ranked.map Prod.fst ↔ isCandidate index res qts d := by
    intro d
    constructor
    · intro hd
      by_contra hc
      have h0 := hA d (by simp [alookup]) hc
      rw [alookup_eq_none_iff] at h0
      exact h0 hd
    · intro hc
      obtain ⟨w, hw, _⟩ := hC d (by simp [alookup]) hc
      exact List.mem_map.2 ⟨(d, w), alookup_mem hw, rfl⟩
  have hbm : bm25 mlog qts (some res) index collection k1 b
      = if ranked.all (fun p => decide (p.2 = 0)) then some none
        else some (some (ranked.mergeSort (fun p q => decide (q.2 ≤ p.2)))) := by
    rw [bm25, if_neg hlen0]
    simp [hloop]
  constructor
  · intro hz
    have hall : ranked.all (fun p => decide (p.2 = 0)) = true := by
      rw [List.all_eq_true]
      intro p hp
      simp [hvals p hp, hz p.1]
    rw [hbm, hall, ite_bool_true]
  · rintro ⟨d, hdnz⟩
    have hcand : isCandidate index res qts d := by
      by_contra hc
      exact hdnz (accumScore_eq_zero_of_not_candidate mlog index collection res k1 b qts d hc)
    obtain ⟨w, hw, hwe⟩ := hC d (by simp [alookup]) hcand
    have hmem : (d, w) ∈ ranked := alookup_mem hw
    have hallf : ranked.all (fun p => decide (p.2 = 0)) = false := by
      rw [List.all_eq_false]
      refine ⟨(d, w), hmem, ?_⟩
      simp only [decide_eq_true_eq]
      rw [hwe]
      exact hdnz
    rw [hbm, hallf, ite_bool_false]
    refine ⟨ranked.mergeSort (fun p q => decide (q.2 ≤ p.2)), rfl, ?_, ?_, ?_⟩
    · have hs := @List.sorted_mergeSort (Nat × ℚ) (fun p q => decide (q.2 ≤ p.2))
        (by
          intro a c e h1 h2
          simp only [decide_eq_true_eq] at h1 h2 ⊢
          exact le_trans h2 h1)
        (by
          intro a c
          simp only [Bool.or_eq_true, decide_eq_true_eq]
          exact le_total c.2 a.2)
        ranked
      have hs2 : (ranked.mergeSort (fun p q => decide (q.2 ≤ p.2))).Pairwise
          (fun p q => q.2 ≤ p.2) :=
        hs.imp (fun hab => by simpa using hab)
      exact List.pairwise_map.2 hs2
    · intro p hp
      exact hvals p ((List.mergeSort_perm _ _).mem_iff.1 hp)
    · intro d'
      rw [((List.mergeSort_perm ranked (fun p q => decide (q.2 ≤ p.2))).map
        Prod.fst).mem_iff]
      exact hkey d'

/-- C9 witness: a one-term query over a two-document collection where the
single candidate scores 1, so bm25 returns a ranking; hypotheses of the
theorem hold at this input. -/
theorem bm25_zero_guard_witness :
    (([["a"], ["a"]] : List (List String)) ≠ []) ∧
    (∀ t ∈ ["a"], ∀ p ∈ (alookup [("a", [(1, 2)])] t).getD [], p.1 ≠ 0 → p.1 ∈ [1] →
      p.1 < ([["a"], ["a"]] : List (List String)).length) ∧
    (∃ out, bm25 (fun _ => 1) ["a"] (some [1]) [("a", [(1, 2)])] [["a"], ["a"]] 0 0
        = some (some out) ∧
      (out.map Prod.snd).Pairwise (fun a c => c ≤ a) ∧
      (∀ p ∈ out, p.2 = accumScore (fun _ => 1) [("a", [(1, 2)])] [["a"], ["a"]]
        [1] 0 0 ["a"] p.1) ∧
      (∀ d, d ∈ out.map Prod.fst ↔ isCandidate [("a", [(1, 2)])] [1] ["a"] d)) := by
  refine ⟨by simp, by decide, ?_⟩
  refine (bm25_zero_guard (fun _ => 1) ["a"] [1] [("a", [(1, 2)])] [["a"], ["a"]] 0 0
    (by simp) (by decide)).2 ⟨1, ?_⟩
  have h : accumScore (fun _ => 1) [("a", [(1, 2)])] [["a"], ["a"]] [1] 0 0 ["a"] 1
      = 1 := by
    rw [accumScore]
    simp only [List.map_cons, List.map_nil, List.sum_cons, List.sum_nil]
    rw [show (alookup [("a", [(1, 2)])] ("a" : String)).getD [] = [(1, 2)] from rfl]
    simp only [List.map_cons, List.map_nil, List.sum_cons, List.sum_nil]
    rw [contribVal, if_pos ⟨rfl, by decide, by decide⟩]
    rw [idfOf]
    rw [show (alookup [("a", [(1, 2)])] ("a" : String)).getD [] = [(1, 2)] from rfl]
    rw [if_pos (by decide)]
    rw [bm25Weight]
    norm_num [bm25DocLen, bmN, bmLavg]
  rw [h]
  norm_num

/-- C7: the document-length lookup in `bm25` indexes the 0-based collection
with the 1-based DocumentID: it is out of bounds when docID = N, and for
docID < N it reads the document whose DocumentID is docID + 1 (the one after
the matching document). -/
theorem bm25_doclen_off_by_one (collection : List (List String)) (docID : Nat) :
    (docID = collection.length → bm25DocLen collection docID = none) ∧
    (docID < collection.length →
      bm25DocLen collection docID = (matchingDoc collection (docID + 1)).map List.length) := by
  constructor
  · intro h
    rw [bm25DocLen, List.get?_eq_none.2 (by omega)]
    rfl
  · intro _
    rw [bm25DocLen, matchingDoc, Nat.add_sub_cancel]

/-- C7 witness: with a two-document collection, docID = 2 is out of bounds
and docID = 1 reads the length of document 2 rather than document 1. -/
theorem bm25_doclen_off_by_one_witness :
    ((2 : Nat) = ([["a"], ["b", "c"]] : List (List String)).length ∧
      bm25DocLen [["a"], ["b", "c"]] 2 = none) ∧
    ((1 : Nat) < ([["a"], ["b", "c"]] : List (List String)).length ∧
      bm25DocLen [["a"], ["b", "c"]] 1
        = (matchingDoc [["a"], ["b", "c"]] 2).map List.length) :=
  ⟨⟨by decide, (bm25_doclen_off_by_one [["a"], ["b", "c"]] 2).1 (by decide)⟩,
   ⟨by decide, (bm25_doclen_off_by_one [["a"], ["b", "c"]] 1).2 (by decide)⟩⟩

/-- C3 (code bug): evaluating `bm25` on a candidate whose posting carries
DocumentID N raises (the model returns the crash marker `none`): the
document-length lookup is out of bounds instead of reading the matching
document's length, so the claimed scoring formula, which uses the matching
document's length, does not hold on the code. -/
theorem bm25_crash_at_boundary :
    bm25 (fun _ => 1) ["a"] (some [2]) [("a", [(2, 1)])] [["a"], ["b"]] 1 1 = none := by
  rfl

end SearchEngine
